import Mathlib

/-!
Verification development for `src/generate_repo_context.py` of the RePrompt
repository.

The central function is `generate_directory_tree(start_path, exclude_dirs)`
(lines 79-119): it runs `os.walk(start_path)` top-down, skips (and prunes)
directories matching an exclusion pattern, and renders one text line per kept
directory and per kept (sorted) file.  We embed it shallowly:

* a directory listing is a `List Entry` (files and subdirectories in the order
  `os.scandir` reports them; `os.walk` partitions that order into `dirnames`
  and `filenames`, each preserving it);
* a path is its `List String` of components; `startParts` stands for
  `Path(dirpath).parts` of the walk root (including the filesystem anchor as
  its own component, the way `pathlib` exposes it), and the relative path of a
  visited entry is the component list below the root;
* Python's `str` comparison (used by `sorted`) is code-point lexicographic;
  we model it directly on `Char` code points (`pyStrLtChars`), because the
  builtin `String` order of Lean does not evaluate inside the kernel;
* `PurePath.match` plus `fnmatch.fnmatchcase` are modelled by `pathMatch`:
  the pattern is split on `/` into components (dropping empty and `.`
  components, as `PurePath` normalisation does); a relative pattern is
  matched right-aligned, an anchored pattern only against an anchored path
  of exactly its own length, componentwise with a glob matcher supporting
  `*`, `?` and `[...]` classes; patterns on which Python would raise
  `ValueError` (and the exotic `//` root) are fenced off by `validPattern`,
  which the claims assume of every exclusion entry;
* `os.walk` is modelled by direct recursion on the listing; pruning
  (`dirnames[:] = []` followed by `continue`, lines 97-99) is the branch that
  contributes no lines and does not recurse.

Next to the line-producing function we define an instrumented twin
(`generate_directory_tree_tagged`) that tags every produced line with the
relative path of the entity that produced it, an operation trace
(`generate_directory_tree_ops`) recording the filesystem accesses the walk
performs, and the function's logging trace.  The fragments of `main`
(lines 247-308) that the claims need — the fatal source-directory check and
the important-files loop — are modelled by `main_model` and
`write_important_files`.
-/

namespace RepoCtx

/-- Python string comparison, strict `<` on the character lists, comparing
code points (this is exactly how CPython compares `str` values, and it is the
order used by the `sorted(filenames)` call on line 111 of the source). -/
def pyStrLtChars : List Char → List Char → Bool
  | [], [] => false
  | [], _ :: _ => true
  | _ :: _, [] => false
  | a :: as, b :: bs =>
      if a.toNat < b.toNat then true
      else if b.toNat < a.toNat then false
      else pyStrLtChars as bs

/-- Python `a <= b` on strings: not `b < a`. -/
def pyStrLe (a b : String) : Bool := !(pyStrLtChars b.data a.data)

/-- The sort relation used to model Python `sorted` on strings. -/
def pyLeRel : String → String → Prop := fun a b => pyStrLe a b = true

instance pyLeRelDecidable : DecidableRel pyLeRel := fun _ _ => instDecidableEqBool _ _

/-- Membership of a character in the body of a `[...]` glob class, with
`lo-hi` ranges as in `fnmatch`'s translation to a regular-expression class. -/
def clsMem (c : Char) : List Char → Bool
  | [] => false
  | lo :: '-' :: hi :: rest => (lo.toNat ≤ c.toNat && c.toNat ≤ hi.toNat) || clsMem c rest
  | x :: rest => (x = c) || clsMem c rest

/-- Scan the characters of a glob class up to the closing `]`; `none` when
the class is unterminated (in which case `fnmatch` treats `[` literally). -/
def clsScan : List Char → Option (List Char × List Char)
  | [] => none
  | ']' :: rest => some ([], rest)
  | c :: rest =>
      match clsScan rest with
      | none => none
      | some (cl, r) => some (c :: cl, r)

/-- Parse a glob class body (the characters after `[`): an optional leading
`!` negates, a `]` right after that is a literal member. Returns the negation
flag, the class characters and the remaining pattern. -/
def clsParse (ps : List Char) : Option (Bool × List Char × List Char) :=
  let (neg, ps1) := match ps with
    | '!' :: t => (true, t)
    | _ => (false, ps)
  match ps1 with
  | ']' :: t =>
      match clsScan t with
      | none => none
      | some (cl, r) => some (neg, ']' :: cl, r)
  | _ =>
      match clsScan ps1 with
      | none => none
      | some (cl, r) => some (neg, cl, r)

/-- Fuelled glob matcher for one path component, after `fnmatch.fnmatchcase`:
`*` matches any (possibly empty) run, `?` any single character, `[...]` a
character class.  The fuel only bounds recursion depth; every step consumes at
least one unit of combined pattern/input length, so the fuel chosen in
`fnmatchStr` is never exhausted. -/
def fnmatchFuel : Nat → List Char → List Char → Bool
  | 0, _, _ => false
  | _ + 1, [], s => s.isEmpty
  | fuel + 1, '*' :: ps, s =>
      fnmatchFuel fuel ps s ||
        (match s with
         | [] => false
         | _ :: s' => fnmatchFuel fuel ('*' :: ps) s')
  | fuel + 1, '?' :: ps, s =>
      (match s with
       | [] => false
       | _ :: s' => fnmatchFuel fuel ps s')
  | fuel + 1, '[' :: ps, s =>
      (match clsParse ps with
       | none =>
           match s with
           | [] => false
           | c :: s' => (c = '[') && fnmatchFuel fuel ps s'
       | some (neg, cl, rest) =>
           match s with
           | [] => false
           | c :: s' => (neg != clsMem c cl) && fnmatchFuel fuel rest s')
  | fuel + 1, p :: ps, s =>
      (match s with
       | [] => false
       | c :: s' => (p = c) && fnmatchFuel fuel ps s')

/-- Glob match of one pattern component against one path component. -/
def fnmatchStr (pat s : String) : Bool :=
  fnmatchFuel (pat.data.length + s.data.length + 1) pat.data s.data

/-- Split the characters of a pattern at `/` separators. -/
def splitSlash : List Char → List (List Char)
  | [] => [[]]
  | '/' :: rest => [] :: splitSlash rest
  | c :: rest =>
      match splitSlash rest with
      | [] => [[c]]
      | g :: gs => (c :: g) :: gs

/-- Components of a pattern, as `PurePath(pattern).parts` produces them:
split on `/`, dropping empty components and `.` components. -/
def patParts (pat : String) : List String :=
  ((splitSlash pat.data).map (fun l => String.mk l)).filter
    (fun s => s ≠ "" && s ≠ ".")

/-- Whether a pattern is anchored (starts with `/`). -/
def patAnchored (pat : String) : Bool :=
  match pat.data with
  | '/' :: _ => true
  | _ => false

/-- Model of `PurePath.match` on POSIX paths.  The path is given by its
`parts` exactly as pathlib exposes them: for an absolute path the first
component is the root `"/"` itself.  An anchored pattern (leading `/`)
carries the root as its first part in Python, so it matches only an
anchored path with exactly the pattern's number of components, compared
componentwise after the shared root — in particular an anchored pattern
never matches a relative path.  A relative pattern is matched right-aligned
against the trailing components.  A relative pattern with no components at
all (empty or only `.` pieces) makes Python raise `ValueError`; the model
returns `false` there, and the claims restrict their exclusion lists to
`validPattern` entries so that only executions the program completes are
described. -/
def pathMatch (pat : String) (parts : List String) : Bool :=
  let pp := patParts pat
  if patAnchored pat then
    match parts with
    | "/" :: rest =>
        decide (pp.length = rest.length) &&
          (List.zip pp rest).all (fun x => fnmatchStr x.1 x.2)
    | _ => false
  else
    if pp.isEmpty then false
    else
      decide (pp.length ≤ parts.length) &&
        (List.zip pp (parts.drop (parts.length - pp.length))).all
          (fun x => fnmatchStr x.1 x.2)

/-- Patterns on which `PurePath.match` returns normally and which the
parts-list model embeds faithfully: the pattern has at least one part
(otherwise Python raises `ValueError` at line 97/113 and the program dies
with a traceback), and it is not rooted at the special POSIX double slash
`//` (a root the single-`"/"`-anchor model does not distinguish; three or
more leading slashes collapse back to the ordinary root `/`). -/
def validPattern (pat : String) : Bool :=
  (patAnchored pat || !(patParts pat).isEmpty) &&
    (match pat.data with
     | '/' :: '/' :: '/' :: _ => true
     | '/' :: '/' :: _ => false
     | _ => true)

/-- Source line 97: a visited directory is skipped when any exclusion entry
glob-matches `current_path` (the full path, `curParts`, root component
included) or equals one of the components of `rel_path` (`relParts`). -/
def dirExcluded (exclude_dirs curParts relParts : List String) : Bool :=
  exclude_dirs.any fun e => pathMatch e curParts || relParts.contains e

/-- Source line 113: a file is skipped when any exclusion entry glob-matches
`file_rel_path` (a relative path, so anchored entries never glob-match it)
or equals one of that relative path's components. -/
def fileExcluded (exclude_dirs fileRelParts : List String) : Bool :=
  exclude_dirs.any fun e => pathMatch e fileRelParts || fileRelParts.contains e

/-- One filesystem entry: a regular file, or a directory with its listing
(in `os.scandir` order). -/
inductive Entry where
  | file (name : String) : Entry
  | dir (name : String) (sub : List Entry) : Entry

/-- Name of an entry. -/
def entryName : Entry → String
  | .file n => n
  | .dir n _ => n

/-- Names of all entries of a listing, in listing order. -/
def allNames (cs : List Entry) : List String := cs.map entryName

/-- The `filenames` component `os.walk` reports for a listing. -/
def fileNames (cs : List Entry) : List String :=
  cs.filterMap fun e =>
    match e with
    | .file n => some n
    | .dir _ _ => none

/-- The `dirnames` component `os.walk` reports for a listing. -/
def dirNames (cs : List Entry) : List String :=
  cs.filterMap fun e =>
    match e with
    | .dir n _ => some n
    | .file _ => none

/-- Source line 103: `"    " * depth`. -/
def indentStr : Nat → String
  | 0 => ""
  | d + 1 => "    " ++ indentStr d

/-- Source lines 115-116: a file line is indented one level deeper than its
directory and prefixed with the connector. -/
def fileRow (depth : Nat) (name : String) : String :=
  indentStr (depth + 1) ++ "├── " ++ name

/-- Source lines 102-108: the root (relative depth 0) is rendered as the bare
connector `.`; a deeper directory is rendered indented with the connector,
its own name and a trailing `/`. -/
def dirRow (relParts : List String) : String :=
  match relParts.getLast? with
  | none => "."
  | some n => indentStr relParts.length ++ "├── " ++ n ++ "/"

/-- Source lines 110-116: `for filename in sorted(filenames)` followed by the
exclusion test and the append of the rendered row.  Python `sorted` is a
stable ascending sort; on duplicate-free name lists every stable sort agrees
with `List.insertionSort` under the same total order. -/
def sortedFileRows (exclude_dirs relParts : List String) (cs : List Entry) : List String :=
  ((List.insertionSort pyLeRel (fileNames cs)).filter
      (fun f => !fileExcluded exclude_dirs (relParts ++ [f]))).map
    (fun f => fileRow relParts.length f)

/-- The recursive part of the `os.walk` loop (lines 92-116) below an already
visited, non-excluded directory at relative path `relParts`: file entries
produce nothing here (their rows were produced with their directory), and
each subdirectory is visited in listing order — skipped and pruned when
excluded (lines 97-99), otherwise rendered (its header line, then its sorted
file rows, then recursively its own subdirectories). -/
def walkEntries (exclude_dirs startParts relParts : List String) : List Entry → List String
  | [] => []
  | .file _ :: es => walkEntries exclude_dirs startParts relParts es
  | .dir n sub :: es =>
      (if dirExcluded exclude_dirs (startParts ++ relParts ++ [n]) (relParts ++ [n]) then []
       else
         dirRow (relParts ++ [n]) ::
           sortedFileRows exclude_dirs (relParts ++ [n]) sub ++
             walkEntries exclude_dirs startParts (relParts ++ [n]) sub) ++
        walkEntries exclude_dirs startParts relParts es

/-- The contribution of one visited directory: nothing when it is excluded
(lines 97-99), otherwise its header row, its sorted surviving file rows and
everything below it. -/
def dirBlock (exclude_dirs startParts relParts : List String) (cs : List Entry) : List String :=
  if dirExcluded exclude_dirs (startParts ++ relParts) relParts then []
  else
    dirRow relParts ::
      sortedFileRows exclude_dirs relParts cs ++
        walkEntries exclude_dirs startParts relParts cs

/-- Lines 79-119, `generate_directory_tree(start_path, exclude_dirs)`:
`startParts` are the components of the (resolved) walk root, `disk` is its
listing.  The root itself is the first directory `os.walk` yields; when it is
excluded nothing at all is produced. -/
def generate_directory_tree (startParts : List String) (disk : List Entry)
    (exclude_dirs : List String) : List String :=
  if dirExcluded exclude_dirs startParts [] then []
  else
    dirRow [] ::
      sortedFileRows exclude_dirs [] disk ++
        walkEntries exclude_dirs startParts [] disk

/-- Tagged file rows: each produced row paired with the relative path of the
file producing it. -/
def fileTagRows (exclude_dirs relParts : List String) (cs : List Entry) :
    List (List String × String) :=
  ((List.insertionSort pyLeRel (fileNames cs)).filter
      (fun f => !fileExcluded exclude_dirs (relParts ++ [f]))).map
    (fun f => (relParts ++ [f], fileRow relParts.length f))

/-- Instrumented twin of `walkEntries`: identical recursion, with every line
paired with the relative path of the directory or file that produced it. -/
def walkEntriesTag (exclude_dirs startParts relParts : List String) :
    List Entry → List (List String × String)
  | [] => []
  | .file _ :: es => walkEntriesTag exclude_dirs startParts relParts es
  | .dir n sub :: es =>
      (if dirExcluded exclude_dirs (startParts ++ relParts ++ [n]) (relParts ++ [n]) then []
       else
         (relParts ++ [n], dirRow (relParts ++ [n])) ::
           fileTagRows exclude_dirs (relParts ++ [n]) sub ++
             walkEntriesTag exclude_dirs startParts (relParts ++ [n]) sub) ++
        walkEntriesTag exclude_dirs startParts relParts es

/-- Instrumented twin of `generate_directory_tree`; erasing the tags gives
back exactly the produced line sequence. -/
def generate_directory_tree_tagged (startParts : List String) (disk : List Entry)
    (exclude_dirs : List String) : List (List String × String) :=
  if dirExcluded exclude_dirs startParts [] then []
  else
    ([], dirRow []) ::
      fileTagRows exclude_dirs [] disk ++
        walkEntriesTag exclude_dirs startParts [] disk

/-- A filesystem access. -/
inductive FsOp where
  | read (path : List String) : FsOp
  | write (path : List String) : FsOp
deriving DecidableEq

/-- Filesystem accesses performed below a visited directory: `os.walk`
lists every directory it reaches (including an excluded one, which it lists
before the loop body prunes it) and descends only into non-excluded ones.
No write operation occurs anywhere in the function. -/
def walkEntriesOps (exclude_dirs startParts relParts : List String) : List Entry → List FsOp
  | [] => []
  | .file _ :: es => walkEntriesOps exclude_dirs startParts relParts es
  | .dir n sub :: es =>
      (FsOp.read (startParts ++ relParts ++ [n]) ::
        (if dirExcluded exclude_dirs (startParts ++ relParts ++ [n]) (relParts ++ [n]) then []
         else walkEntriesOps exclude_dirs startParts (relParts ++ [n]) sub)) ++
        walkEntriesOps exclude_dirs startParts relParts es

/-- The filesystem accesses `generate_directory_tree` performs. -/
def generate_directory_tree_ops (startParts : List String) (disk : List Entry)
    (exclude_dirs : List String) : List FsOp :=
  FsOp.read startParts ::
    (if dirExcluded exclude_dirs startParts [] then []
     else walkEntriesOps exclude_dirs startParts [] disk)

/-- A logging event, as emitted through the `logging` module. -/
inductive LogEvent where
  | info (msg : String) : LogEvent
  | warn (msg : String) : LogEvent
  | err (msg : String) : LogEvent
deriving DecidableEq

/-- Whether a logging event is a warning. -/
def LogEvent.isWarning : LogEvent → Bool
  | .warn _ => true
  | _ => false

/-- The logging trace of `generate_directory_tree`: the function contains a
single `logging.info("Directory tree generated.")` call (line 118) and no
warning or error call at all, on every input. -/
def generate_directory_tree_log (_startParts : List String) (_disk : List Entry)
    (_exclude_dirs : List String) : List LogEvent :=
  [LogEvent.info "Directory tree generated."]

/-- Whether `relPath` designates a directory reachable inside the listing
(`[]` designates the listed directory itself). -/
def isDirAt : List Entry → List String → Bool
  | _, [] => true
  | cs, n :: rest =>
      cs.any fun e =>
        match e with
        | .dir m sub => m = n && isDirAt sub rest
        | .file _ => false

/-- Whether `relPath` designates a regular file reachable inside the listing. -/
def isFileAt : List Entry → List String → Bool
  | _, [] => false
  | cs, [f] => (fileNames cs).contains f
  | cs, n :: rest =>
      cs.any fun e =>
        match e with
        | .dir m sub => m = n && isFileAt sub rest
        | .file _ => false

/-- Well-formedness of the sub-listings: inside every subdirectory the entry
names are pairwise distinct (true of every real directory). -/
def wfList : List Entry → Bool
  | [] => true
  | .file _ :: es => wfList es
  | .dir _ sub :: es => (decide (allNames sub).Nodup && wfList sub) && wfList es

/-- Well-formedness of a root listing: names are pairwise distinct at the
root level and inside every subdirectory. -/
def wfRoot (cs : List Entry) : Bool :=
  decide (allNames cs).Nodup && wfList cs

/-- Whether a name is a possible filesystem name: non-empty and without a
path separator. -/
def nameOk (n : String) : Bool :=
  (!(n = "")) && !(n.data.contains '/')

/-- All entry names of the listing and of every nested listing are possible
filesystem names. -/
def goodList : List Entry → Bool
  | [] => true
  | .file n :: es => nameOk n && goodList es
  | .dir n sub :: es => (nameOk n && goodList sub) && goodList es

/-- Outcome of running `main`. -/
inductive MainOutcome where
  | exited (code : Nat) : MainOutcome
  | completed : MainOutcome
deriving DecidableEq

/-- The environment `main` starts in: whether `config.yaml` exists and
parses, whether the configured source directory exists, and the content of a
pre-existing `repo-context.txt` (if any). -/
structure MainEnv where
  configExists : Bool
  configParses : Bool
  sourceExists : Bool
  outputFile : Option String

/-- A chunk appended to the output file by the important-files loop of
`main` (lines 288-295): either the rendered content block that
`write_file_content` appends for an existing file, or the literal
not-found note appended for a missing one. -/
inductive Chunk where
  | fileContent (path : String) (body : String) : Chunk
  | missingNote (path : String) : Chunk
deriving DecidableEq

/-- A warning logged by `main`. -/
inductive Warn where
  | missingImportant (path : String) : Warn
deriving DecidableEq

/-- Rendering of a chunk into the text appended to the output file; the
content block written by `write_file_content` for an existing file is
carried abstractly as `body`, the note for a missing file is the literal
string of line 294. -/
def renderChunk : Chunk → String
  | .fileContent _ body => body
  | .missingNote p => "*File `" ++ p ++ "` not found, skipping...*\n\n"

/-- Rendering of a warning into the message logged on line 295. -/
def renderWarn : Warn → String
  | .missingImportant p => "Important file " ++ p ++ " not found, skipping..."

/-- Lines 288-295 of `main`: iterate over `important_files`; an existing
entry gets its content block appended, a missing one gets the not-found note
appended and one warning logged, and the loop always continues with the
remaining entries.  `iex` tells which paths exist on disk, `icontent` gives
the content block `write_file_content` appends for an existing path. -/
def write_important_files (iex : String → Bool) (icontent : String → String) :
    List String → List Chunk × List Warn
  | [] => ([], [])
  | f :: fs =>
      let r := write_important_files iex icontent fs
      if iex f then (Chunk.fileContent f (icontent f) :: r.1, r.2)
      else (Chunk.missingNote f :: r.1, Warn.missingImportant f :: r.2)

/-- Lines 121-135, `write_directory_tree`: the tree section appended to the
output file. -/
def treeBlock (tree_lines : List String) : String :=
  "## Directory Tree with Exclusions\n\n```\n" ++
    String.join (tree_lines.map (fun l => l ++ "\n")) ++ "```\n\n"

/-- Lines 247-308, `main`, at the granularity the claims need.  The
configuration checks of `load_config` (lines 67-77) and the source-directory
check (lines 264-266) each call `sys.exit(1)` before the pre-existing output
file is touched: `output_file.unlink` (line 269) runs only after all of them
passed.  On success the output file is rebuilt from scratch: header, static
sections, tree section, important files, trailing sections (the static and
trailing text is carried abstractly). -/
def main_model (env : MainEnv) (startParts : List String) (disk : List Entry)
    (exclude_dirs important_files : List String)
    (iex : String → Bool) (icontent : String → String)
    (headerText staticText tailText : String) : MainOutcome × Option String :=
  if env.configExists = false then (.exited 1, env.outputFile)
  else if env.configParses = false then (.exited 1, env.outputFile)
  else if env.sourceExists = false then (.exited 1, env.outputFile)
  else
    let tree := generate_directory_tree startParts disk exclude_dirs
    let im := write_important_files iex icontent important_files
    (.completed,
      some (headerText ++ staticText ++ treeBlock tree ++
        "## Important Files\n\n" ++ String.join (im.1.map renderChunk) ++ tailText))

/-! Basic facts about the operation trace and the logging trace. -/

theorem walkEntriesOps_reads (E st rel : List String) (cs : List Entry) :
    ∀ op ∈ walkEntriesOps E st rel cs, ∃ p, op = FsOp.read p := by
  induction rel, cs using walkEntriesOps.induct E st with
  | case1 rel => simp [walkEntriesOps]
  | case2 rel n es ih => simpa [walkEntriesOps] using ih
  | case3 rel n sub es ih1 ih2 =>
      intro op hop
      rw [walkEntriesOps] at hop
      rcases List.mem_append.mp hop with h | h
      · rcases List.mem_cons.mp h with h | h
        · exact ⟨_, h⟩
        · split at h
          · cases h
          · exact ih1 op h
      · exact ih2 op h

/-- C9: when the walk root itself matches an exclusion pattern (for
well-formed patterns, on which the matcher model agrees with
`PurePath.match`), the very first `os.walk` entry is skipped with all
descendants pruned, so the function returns the empty list — no `.` root
marker is produced. -/
theorem C9_root_excluded (startParts : List String) (disk : List Entry)
    (exclude_dirs : List String)
    (_hpats : ∀ e ∈ exclude_dirs, validPattern e = true)
    (h : dirExcluded exclude_dirs startParts [] = true) :
    generate_directory_tree startParts disk exclude_dirs = [] := by
  simp [generate_directory_tree, h]

theorem C9_root_excluded_witness :
    (∀ e ∈ ["/repo"], validPattern e = true) ∧
      dirExcluded ["/repo"] ["/", "repo"] [] = true ∧
      generate_directory_tree ["/", "repo"] [Entry.file "a"] ["/repo"] = [] :=
  ⟨by decide, by decide,
    C9_root_excluded ["/", "repo"] [Entry.file "a"] ["/repo"]
      (by decide) (by decide)⟩

/-- C3, counterexample to the warning part: on an empty root listing the
output is exactly `["."]`, but the logging trace of
`generate_directory_tree` contains no warning at all (the function's only
logging call is `logging.info`, line 118), so no non-fatal warning is
signaled to the caller. -/
theorem C3_counterexample :
    generate_directory_tree ["repo"] [] [] = ["."] ∧
      ∀ m ∈ generate_directory_tree_log ["repo"] [] [], LogEvent.isWarning m = false := by
  constructor
  · simp [generate_directory_tree, dirExcluded, sortedFileRows, fileNames,
      walkEntries, dirRow]
  · intro m hm
    simp only [generate_directory_tree_log, List.mem_singleton] at hm
    subst hm
    rfl

/-- C3, amended: when the root listing is empty (and the root is not itself
excluded; patterns well-formed so the matcher model agrees with
`PurePath.match`) the output is exactly `["."]`, and no warning is signaled
— the function's logging trace contains no warning event. -/
theorem C3_empty_tree (startParts exclude_dirs : List String)
    (_hpats : ∀ e ∈ exclude_dirs, validPattern e = true)
    (h : dirExcluded exclude_dirs startParts [] = false) :
    generate_directory_tree startParts [] exclude_dirs = ["."] ∧
      ∀ m ∈ generate_directory_tree_log startParts [] exclude_dirs,
        LogEvent.isWarning m = false := by
  constructor
  · simp [generate_directory_tree, h, sortedFileRows, fileNames, walkEntries, dirRow]
  · intro m hm
    simp only [generate_directory_tree_log, List.mem_singleton] at hm
    subst hm
    rfl

theorem C3_empty_tree_witness :
    (∀ e ∈ ["node_modules"], validPattern e = true) ∧
      dirExcluded ["node_modules"] ["/", "repo"] [] = false ∧
      (generate_directory_tree ["/", "repo"] [] ["node_modules"] = ["."] ∧
        ∀ m ∈ generate_directory_tree_log ["/", "repo"] [] ["node_modules"],
          LogEvent.isWarning m = false) :=
  ⟨by decide, by decide,
    C3_empty_tree ["/", "repo"] ["node_modules"] (by decide) (by decide)⟩

/-- C4: tree construction is a pure function of the walk root, the listing
(including its traversal order) and the exclusion patterns — two calls on
equal inputs return identical line sequences — and its operation trace
consists of read operations only: the function never writes to the file
system. -/
theorem C4_deterministic_readonly (startParts exclude_dirs : List String)
    (d1 d2 : List Entry) (h : d1 = d2) :
    generate_directory_tree startParts d1 exclude_dirs =
        generate_directory_tree startParts d2 exclude_dirs ∧
      ∀ op ∈ generate_directory_tree_ops startParts d1 exclude_dirs,
        ∃ p, op = FsOp.read p := by
  subst h
  refine ⟨rfl, ?_⟩
  intro op hop
  simp only [generate_directory_tree_ops] at hop
  rcases List.mem_cons.mp hop with h | h
  · exact ⟨_, h⟩
  · split at h
    · cases h
    · exact walkEntriesOps_reads exclude_dirs startParts [] d1 op h

theorem C4_deterministic_readonly_witness :
    ([Entry.file "a"] : List Entry) = [Entry.file "a"] ∧
      (generate_directory_tree ["r"] [Entry.file "a"] [] =
          generate_directory_tree ["r"] [Entry.file "a"] [] ∧
        ∀ op ∈ generate_directory_tree_ops ["r"] [Entry.file "a"] [],
          ∃ p, op = FsOp.read p) :=
  ⟨rfl, C4_deterministic_readonly ["r"] [] [Entry.file "a"] [Entry.file "a"] rfl⟩

/-- C6: when the configured source directory does not exist, `main` exits
fatally (`sys.exit(1)`, line 266) before `output_file.unlink` (line 269) and
before any write: the pre-existing output file is left unchanged and no
output is produced. -/
theorem C6_missing_root_aborts (env : MainEnv) (startParts : List String)
    (disk : List Entry) (exclude_dirs important_files : List String)
    (iex : String → Bool) (icontent : String → String)
    (headerText staticText tailText : String)
    (hc : env.configExists = true) (hp : env.configParses = true)
    (hs : env.sourceExists = false) :
    main_model env startParts disk exclude_dirs important_files iex icontent
        headerText staticText tailText =
      (MainOutcome.exited 1, env.outputFile) := by
  simp [main_model, hc, hp, hs]

theorem C6_missing_root_aborts_witness :
    (MainEnv.mk true true false (some "old content")).configExists = true ∧
      (MainEnv.mk true true false (some "old content")).configParses = true ∧
      (MainEnv.mk true true false (some "old content")).sourceExists = false ∧
      main_model (MainEnv.mk true true false (some "old content")) ["r"]
          [Entry.file "a"] [] [] (fun _ => true) (fun _ => "") "" "" "" =
        (MainOutcome.exited 1, some "old content") :=
  ⟨rfl, rfl, rfl,
    C6_missing_root_aborts (MainEnv.mk true true false (some "old content")) ["r"]
      [Entry.file "a"] [] [] (fun _ => true) (fun _ => "") "" "" "" rfl rfl rfl⟩

/-! Facts about the important-files loop of `main` (lines 288-295). -/

theorem wif_warn_count (iex : String → Bool) (icontent : String → String)
    (f : String) (hf : iex f = false) (files : List String) :
    ((write_important_files iex icontent files).2).count (Warn.missingImportant f) =
      files.count f := by
  induction files with
  | nil => simp [write_important_files]
  | cons x xs ih =>
      by_cases hx : iex x = true
      · have hxf : ¬(x = f) := fun e => by rw [e, hf] at hx; cases hx
        have hfx : ¬(f = x) := fun e => hxf e.symm
        simp [write_important_files, hx, List.count_cons, ih, hxf, hfx]
      · rw [Bool.not_eq_true] at hx
        by_cases hxf : x = f
        · subst hxf
          simp [write_important_files, hx, List.count_cons, ih]
        · have hfx : ¬(f = x) := fun e => hxf e.symm
          simp [write_important_files, hx, List.count_cons, ih, hxf, hfx]

theorem wif_no_content_of_missing (iex : String → Bool) (icontent : String → String)
    (f : String) (hf : iex f = false) (files : List String) :
    ∀ b, Chunk.fileContent f b ∉ (write_important_files iex icontent files).1 := by
  induction files with
  | nil => simp [write_important_files]
  | cons x xs ih =>
      intro b hmem
      by_cases hx : iex x = true
      · simp only [write_important_files, hx, if_true, List.mem_cons] at hmem
        rcases hmem with h | h
        · have hfx : f = x := ((Chunk.fileContent.injEq _ _ _ _).mp h).1
          rw [hfx, hx] at hf
          cases hf
        · exact ih b h
      · rw [Bool.not_eq_true] at hx
        simp only [write_important_files, hx, Bool.false_eq_true, if_false,
          List.mem_cons] at hmem
        rcases hmem with h | h
        · cases h
        · exact ih b h

theorem wif_missing_note_mem (iex : String → Bool) (icontent : String → String)
    (f : String) (hf : iex f = false) (files : List String) (hmem : f ∈ files) :
    Chunk.missingNote f ∈ (write_important_files iex icontent files).1 := by
  induction files with
  | nil => cases hmem
  | cons x xs ih =>
      rcases List.mem_cons.mp hmem with h | h
      · subst h
        simp [write_important_files, hf]
      · by_cases hx : iex x = true
        · simp only [write_important_files, hx, if_true]
          exact List.mem_cons_of_mem _ (ih h)
        · rw [Bool.not_eq_true] at hx
          simp only [write_important_files, hx, Bool.false_eq_true, if_false]
          exact List.mem_cons_of_mem _ (ih h)

theorem wif_content_mem (iex : String → Bool) (icontent : String → String)
    (files : List String) :
    ∀ g ∈ files, iex g = true →
      Chunk.fileContent g (icontent g) ∈ (write_important_files iex icontent files).1 := by
  induction files with
  | nil => simp
  | cons x xs ih =>
      intro g hg hgex
      rcases List.mem_cons.mp hg with h | h
      · subst h
        simp [write_important_files, hgex]
      · by_cases hx : iex x = true
        · simp only [write_important_files, hx, if_true]
          exact List.mem_cons_of_mem _ (ih g h hgex)
        · rw [Bool.not_eq_true] at hx
          simp only [write_important_files, hx, Bool.false_eq_true, if_false]
          exact List.mem_cons_of_mem _ (ih g h hgex)

/-- C7: an important-files entry that does not exist on disk is skipped with
exactly one warning logged for it, its content block never appears (the
literal not-found note is appended instead), the loop does not abort, and
every other existing entry still gets its content block appended. -/
theorem C7_missing_entry_skipped (iex : String → Bool) (icontent : String → String)
    (files : List String) (f : String)
    (hmem : f ∈ files) (hmiss : iex f = false) (honce : files.count f = 1) :
    ((write_important_files iex icontent files).2).count (Warn.missingImportant f) = 1 ∧
      (∀ b, Chunk.fileContent f b ∉ (write_important_files iex icontent files).1) ∧
      Chunk.missingNote f ∈ (write_important_files iex icontent files).1 ∧
      ∀ g ∈ files, iex g = true →
        Chunk.fileContent g (icontent g) ∈ (write_important_files iex icontent files).1 := by
  refine ⟨?_, wif_no_content_of_missing iex icontent f hmiss files,
    wif_missing_note_mem iex icontent f hmiss files hmem,
    wif_content_mem iex icontent files⟩
  rw [wif_warn_count iex icontent f hmiss files, honce]

theorem C7_missing_entry_skipped_witness :
    "gone.txt" ∈ ["a.py", "gone.txt"] ∧
      (fun s => s == "a.py") "gone.txt" = false ∧
      (["a.py", "gone.txt"] : List String).count "gone.txt" = 1 ∧
      (((write_important_files (fun s => s == "a.py") (fun _ => "body")
            ["a.py", "gone.txt"]).2).count (Warn.missingImportant "gone.txt") = 1 ∧
        (∀ b, Chunk.fileContent "gone.txt" b ∉
          (write_important_files (fun s => s == "a.py") (fun _ => "body")
            ["a.py", "gone.txt"]).1) ∧
        Chunk.missingNote "gone.txt" ∈
          (write_important_files (fun s => s == "a.py") (fun _ => "body")
            ["a.py", "gone.txt"]).1 ∧
        ∀ g ∈ ["a.py", "gone.txt"], (fun s => s == "a.py") g = true →
          Chunk.fileContent g ((fun _ => "body") g) ∈
            (write_important_files (fun s => s == "a.py") (fun _ => "body")
              ["a.py", "gone.txt"]).1) :=
  ⟨by decide, by decide, by decide,
    C7_missing_entry_skipped (fun s => s == "a.py") (fun _ => "body")
      ["a.py", "gone.txt"] "gone.txt" (by decide) (by decide) (by decide)⟩

/-! Order theory for the modelled Python string comparison. -/

theorem pyStrLtChars_irrefl : ∀ a, pyStrLtChars a a = false
  | [] => rfl
  | _ :: cs => by simp [pyStrLtChars, pyStrLtChars_irrefl cs]

theorem pyStrLtChars_trans : ∀ a b c, pyStrLtChars a b = true →
    pyStrLtChars b c = true → pyStrLtChars a c = true
  | [], [], _, h1, _ => by simp [pyStrLtChars] at h1
  | _ :: _, [], _, h1, _ => by simp [pyStrLtChars] at h1
  | [], _ :: _, [], _, h2 => by simp [pyStrLtChars] at h2
  | _ :: _, _ :: _, [], _, h2 => by simp [pyStrLtChars] at h2
  | [], _ :: _, _ :: _, _, _ => rfl
  | a :: as, b :: bs, c :: cs, h1, h2 => by
      rw [pyStrLtChars] at h1 h2 ⊢
      by_cases hab : a.toNat < b.toNat
      · by_cases hbc : b.toNat < c.toNat
        · simp [show a.toNat < c.toNat by omega]
        · by_cases hcb : c.toNat < b.toNat
          · simp [hbc, hcb] at h2
          · have : b.toNat = c.toNat := by omega
            simp [show a.toNat < c.toNat by omega]
      · by_cases hba : b.toNat < a.toNat
        · simp [hab, hba] at h1
        · have hab2 : a.toNat = b.toNat := by omega
          by_cases hbc : b.toNat < c.toNat
          · simp [show a.toNat < c.toNat by omega]
          · by_cases hcb : c.toNat < b.toNat
            · simp [hbc, hcb] at h2
            · simp [hab, hba] at h1
              simp [hbc, hcb] at h2
              have hac : ¬(a.toNat < c.toNat) := by omega
              have hca : ¬(c.toNat < a.toNat) := by omega
              simp [hac, hca]
              exact pyStrLtChars_trans as bs cs h1 h2

theorem pyStrLtChars_false_or : ∀ a b, pyStrLtChars a b = false →
    pyStrLtChars b a = true ∨ a = b
  | [], [], _ => Or.inr rfl
  | [], _ :: _, h => by simp [pyStrLtChars] at h
  | _ :: _, [], _ => Or.inl rfl
  | a :: as, b :: bs, h => by
      rw [pyStrLtChars] at h
      by_cases hab : a.toNat < b.toNat
      · simp [hab] at h
      · by_cases hba : b.toNat < a.toNat
        · exact Or.inl (by rw [pyStrLtChars]; simp [hba])
        · have h3 : a.toNat = b.toNat := by omega
          have heq : a = b := Char.ext (UInt32.ext h3)
          subst heq
          simp [hab, hba] at h
          rcases pyStrLtChars_false_or as bs h with h' | h'
          · exact Or.inl (by rw [pyStrLtChars]; simp [h'])
          · exact Or.inr (by rw [h'])

instance pyLeRelTotal : IsTotal String pyLeRel := by
  constructor
  intro a b
  by_cases h : pyStrLtChars b.data a.data = true
  · right
    unfold pyLeRel pyStrLe
    rw [Bool.not_eq_true']
    by_cases h2 : pyStrLtChars a.data b.data = true
    · have h3 := pyStrLtChars_trans b.data a.data b.data h h2
      rw [pyStrLtChars_irrefl] at h3
      cases h3
    · rw [Bool.eq_false_iff]
      exact h2
  · left
    unfold pyLeRel pyStrLe
    rw [Bool.not_eq_true', Bool.eq_false_iff]
    exact h

instance pyLeRelTrans : IsTrans String pyLeRel := by
  constructor
  intro a b c hab hbc
  unfold pyLeRel pyStrLe at hab hbc ⊢
  rw [Bool.not_eq_true'] at hab hbc ⊢
  by_cases hca : pyStrLtChars c.data a.data = true
  · exfalso
    rcases pyStrLtChars_false_or _ _ hbc with h1 | h1
    · rcases pyStrLtChars_false_or _ _ hab with h2 | h2
      · have h3 := pyStrLtChars_trans _ _ _ h2 h1
        have h4 := pyStrLtChars_trans _ _ _ h3 hca
        rw [pyStrLtChars_irrefl] at h4
        cases h4
      · rw [h2] at h1
        have h4 := pyStrLtChars_trans _ _ _ h1 hca
        rw [pyStrLtChars_irrefl] at h4
        cases h4
    · rw [h1] at hca
      rw [hca] at hab
      cases hab
  · rw [Bool.eq_false_iff]
    exact hca

/-! Structural facts about listings, names and path predicates. -/

theorem fileNames_cons_file (n : String) (es : List Entry) :
    fileNames (Entry.file n :: es) = n :: fileNames es := by
  simp [fileNames, List.filterMap_cons]

theorem fileNames_cons_dir (n : String) (sub es : List Entry) :
    fileNames (Entry.dir n sub :: es) = fileNames es := by
  simp [fileNames, List.filterMap_cons]

theorem dirNames_cons_file (n : String) (es : List Entry) :
    dirNames (Entry.file n :: es) = dirNames es := by
  simp [dirNames, List.filterMap_cons]

theorem dirNames_cons_dir (n : String) (sub es : List Entry) :
    dirNames (Entry.dir n sub :: es) = n :: dirNames es := by
  simp [dirNames, List.filterMap_cons]

theorem mem_allNames_of_mem_fileNames : ∀ {cs : List Entry} {f : String},
    f ∈ fileNames cs → f ∈ allNames cs := by
  intro cs
  induction cs with
  | nil => intro f h; cases h
  | cons e es ih =>
      intro f h
      cases e with
      | file n =>
          rw [fileNames_cons_file] at h
          rcases List.mem_cons.mp h with h | h
          · subst h
            exact List.mem_cons_self _ _
          · exact List.mem_cons_of_mem _ (ih h)
      | dir n sub =>
          rw [fileNames_cons_dir] at h
          exact List.mem_cons_of_mem _ (ih h)

theorem mem_allNames_of_mem_dirNames : ∀ {cs : List Entry} {n : String},
    n ∈ dirNames cs → n ∈ allNames cs := by
  intro cs
  induction cs with
  | nil => intro n h; cases h
  | cons e es ih =>
      intro n h
      cases e with
      | file m =>
          rw [dirNames_cons_file] at h
          exact List.mem_cons_of_mem _ (ih h)
      | dir m sub =>
          rw [dirNames_cons_dir] at h
          rcases List.mem_cons.mp h with h | h
          · subst h
            exact List.mem_cons_self _ _
          · exact List.mem_cons_of_mem _ (ih h)

theorem not_file_and_dir : ∀ {cs : List Entry}, (allNames cs).Nodup →
    ∀ {f : String}, f ∈ fileNames cs → f ∈ dirNames cs → False := by
  intro cs
  induction cs with
  | nil => intro _ f hf _; cases hf
  | cons e es ih =>
      intro hnd f hf hd
      have hnd2 : (entryName e :: allNames es).Nodup := hnd
      have hhead : entryName e ∉ allNames es := (List.nodup_cons.mp hnd2).1
      have hnd' : (allNames es).Nodup := (List.nodup_cons.mp hnd2).2
      cases e with
      | file n =>
          rw [fileNames_cons_file] at hf
          rw [dirNames_cons_file] at hd
          rcases List.mem_cons.mp hf with h | h
          · subst h
            exact hhead (mem_allNames_of_mem_dirNames hd)
          · exact ih hnd' h hd
      | dir n sub =>
          rw [fileNames_cons_dir] at hf
          rw [dirNames_cons_dir] at hd
          rcases List.mem_cons.mp hd with h | h
          · subst h
            exact hhead (mem_allNames_of_mem_fileNames hf)
          · exact ih hnd' hf h

theorem mem_dirNames_of_mem {n : String} {sub : List Entry} :
    ∀ {cs : List Entry}, Entry.dir n sub ∈ cs → n ∈ dirNames cs := by
  intro cs
  induction cs with
  | nil => intro h; cases h
  | cons e es ih =>
      intro h
      rcases List.mem_cons.mp h with heq | hmem
      · subst heq
        rw [dirNames_cons_dir]
        exact List.mem_cons_self _ _
      · cases e with
        | file m => rw [dirNames_cons_file]; exact ih hmem
        | dir m s2 => rw [dirNames_cons_dir]; exact List.mem_cons_of_mem _ (ih hmem)

/-! Introduction and elimination rules for the path predicates. -/

theorem isDirAt_nil (cs : List Entry) : isDirAt cs [] = true := rfl

theorem isDirAt_extract {cs : List Entry} {n : String} {rest : List String}
    (h : isDirAt cs (n :: rest) = true) :
    ∃ sub, Entry.dir n sub ∈ cs ∧ isDirAt sub rest = true := by
  rw [isDirAt] at h
  rcases List.any_eq_true.mp h with ⟨e, he, hpe⟩
  cases e with
  | file m => simp at hpe
  | dir m sub =>
      simp only [Bool.and_eq_true, decide_eq_true_eq] at hpe
      rcases hpe with ⟨hmn, hsub⟩
      subst hmn
      exact ⟨sub, he, hsub⟩

theorem isDirAt_intro {cs : List Entry} {n : String} {sub : List Entry} {rest : List String}
    (hmem : Entry.dir n sub ∈ cs) (h : isDirAt sub rest = true) :
    isDirAt cs (n :: rest) = true := by
  rw [isDirAt]
  refine List.any_eq_true.mpr ⟨Entry.dir n sub, hmem, ?_⟩
  simp [h]

theorem isFileAt_single {cs : List Entry} {f : String} :
    isFileAt cs [f] = true ↔ f ∈ fileNames cs := by
  rw [isFileAt]
  exact List.elem_iff

theorem isFileAt_extract {cs : List Entry} {n m : String} {rs : List String}
    (h : isFileAt cs (n :: m :: rs) = true) :
    ∃ sub, Entry.dir n sub ∈ cs ∧ isFileAt sub (m :: rs) = true := by
  rw [isFileAt] at h
  case x_2 => simp
  rcases List.any_eq_true.mp h with ⟨e, he, hpe⟩
  cases e with
  | file x => simp at hpe
  | dir x sub =>
      simp only [Bool.and_eq_true, decide_eq_true_eq] at hpe
      rcases hpe with ⟨hmn, hsub⟩
      subst hmn
      exact ⟨sub, he, hsub⟩

theorem isFileAt_intro_deep {cs : List Entry} {n m : String} {rs : List String}
    {sub : List Entry} (hmem : Entry.dir n sub ∈ cs)
    (h : isFileAt sub (m :: rs) = true) : isFileAt cs (n :: m :: rs) = true := by
  rw [isFileAt]
  case x_2 => simp
  refine List.any_eq_true.mpr ⟨Entry.dir n sub, hmem, ?_⟩
  simp [h]

theorem isDirAt_cons_weaken {e : Entry} {es : List Entry} {s : List String}
    (h : isDirAt es s = true) : isDirAt (e :: es) s = true := by
  cases s with
  | nil => rfl
  | cons n rest =>
      rcases isDirAt_extract h with ⟨sub, hmem, hsub⟩
      exact isDirAt_intro (List.mem_cons_of_mem _ hmem) hsub

theorem isFileAt_cons_weaken {e : Entry} {es : List Entry} {s : List String}
    (h : isFileAt es s = true) : isFileAt (e :: es) s = true := by
  cases s with
  | nil => rw [isFileAt] at h; cases h
  | cons n rest =>
      cases rest with
      | nil =>
          rw [isFileAt_single] at h ⊢
          cases e with
          | file m => rw [fileNames_cons_file]; exact List.mem_cons_of_mem _ h
          | dir m sub => rw [fileNames_cons_dir]; exact h
      | cons m rs =>
          rcases isFileAt_extract h with ⟨sub, hmem, hsub⟩
          exact isFileAt_intro_deep (List.mem_cons_of_mem _ hmem) hsub

/-! Prefix utilities. -/

theorem prefix_singleton {α : Type} {t : List α} {n : α}
    (h : t <+: [n]) (hne : t ≠ []) : t = [n] := by
  cases t with
  | nil => cases hne rfl
  | cons a t' =>
      rcases List.cons_prefix_cons.mp h with ⟨h1, h2⟩
      subst h1
      rw [List.prefix_nil] at h2
      subst h2
      rfl

theorem prefix_cons_nonnil {α : Type} {t s : List α} {n : α}
    (h : t <+: n :: s) (hne : t ≠ []) : ∃ t', t = n :: t' ∧ t' <+: s := by
  cases t with
  | nil => cases hne rfl
  | cons a t' =>
      rcases List.cons_prefix_cons.mp h with ⟨h1, h2⟩
      subst h1
      exact ⟨t', rfl, h2⟩

theorem prefix_concat_cases {α : Type} {P p : List α} {f : α}
    (h : P <+: p ++ [f]) : P <+: p ∨ P = p ++ [f] := by
  have hlen := h.length_le
  rw [List.length_append, List.length_singleton] at hlen
  by_cases hle : P.length ≤ p.length
  · left
    have htake := List.prefix_iff_eq_take.mp h
    rw [List.take_append_of_le_length hle] at htake
    rw [htake]
    exact List.take_prefix _ _
  · right
    have hlen2 : P.length = p.length + 1 := by omega
    have htake := List.prefix_iff_eq_take.mp h
    rw [hlen2] at htake
    rwa [List.take_of_length_le (by simp)] at htake

theorem append_cons_eq {α : Type} (rel : List α) (n : α) (x : List α) :
    (rel ++ [n]) ++ x = rel ++ n :: x := by
  simp

theorem isDirAt_ancestor : ∀ {t s : List String} {cs : List Entry},
    isDirAt cs s = true → t <+: s → isDirAt cs t = true := by
  intro t
  induction t with
  | nil => intro s cs _ _; rfl
  | cons a t' ih =>
      intro s cs hs hpre
      cases s with
      | nil =>
          rw [List.prefix_nil] at hpre
          cases hpre
      | cons b s' =>
          rcases List.cons_prefix_cons.mp hpre with ⟨h1, h2⟩
          subst h1
          rcases isDirAt_extract hs with ⟨sub, hmem, hsub⟩
          exact isDirAt_intro hmem (ih hsub h2)

theorem isDirAt_of_isFileAt : ∀ {p : List String} {f : String} {cs : List Entry},
    isFileAt cs (p ++ [f]) = true → isDirAt cs p = true := by
  intro p
  induction p with
  | nil => intro f cs _; rfl
  | cons n p' ih =>
      intro f cs h
      rw [List.cons_append] at h
      rcases show ∃ m rs, p' ++ [f] = m :: rs by
          cases p' with
          | nil => exact ⟨f, [], rfl⟩
          | cons x xs => exact ⟨x, xs ++ [f], rfl⟩ with ⟨m, rs, hrw⟩
      rw [hrw] at h
      rcases isFileAt_extract h with ⟨sub, hmem, hsub⟩
      rw [← hrw] at hsub
      exact isDirAt_intro hmem (ih hsub)

/-! Well-formedness and good-name facts. -/

theorem wfList_mem_dir : ∀ {cs : List Entry}, wfList cs = true →
    ∀ {n : String} {sub : List Entry}, Entry.dir n sub ∈ cs → wfRoot sub = true := by
  intro cs
  induction cs with
  | nil => intro _ n sub h; cases h
  | cons e es ih =>
      intro hwf n sub hmem
      rcases List.mem_cons.mp hmem with heq | hmem'
      · subst heq
        rw [wfList, Bool.and_eq_true, Bool.and_eq_true] at hwf
        rw [wfRoot, Bool.and_eq_true]
        exact ⟨hwf.1.1, hwf.1.2⟩
      · cases e with
        | file m =>
            rw [wfList] at hwf
            exact ih hwf hmem'
        | dir m s2 =>
            rw [wfList, Bool.and_eq_true] at hwf
            exact ih hwf.2 hmem'

theorem wfRoot_cons {e : Entry} {es : List Entry} (h : wfRoot (e :: es) = true) :
    wfRoot es = true := by
  rw [wfRoot, Bool.and_eq_true, decide_eq_true_eq] at h ⊢
  have hnd : (entryName e :: allNames es).Nodup := h.1
  refine ⟨(List.nodup_cons.mp hnd).2, ?_⟩
  have := h.2
  cases e with
  | file m => rwa [wfList] at this
  | dir m s2 =>
      rw [wfList, Bool.and_eq_true] at this
      exact this.2

theorem not_isFileAt_isDirAt : ∀ {q : List String} {cs : List Entry},
    wfRoot cs = true → isFileAt cs q = true → isDirAt cs q = true → False := by
  intro q
  induction q with
  | nil => intro cs _ hf _; rw [isFileAt] at hf; cases hf
  | cons n rest ih =>
      intro cs hwf hf hd
      have hnd : (allNames cs).Nodup := by
        rw [wfRoot, Bool.and_eq_true, decide_eq_true_eq] at hwf
        exact hwf.1
      have hwfl : wfList cs = true := by
        rw [wfRoot, Bool.and_eq_true] at hwf
        exact hwf.2
      cases rest with
      | nil =>
          have hfn : n ∈ fileNames cs := isFileAt_single.mp hf
          rcases isDirAt_extract hd with ⟨sub, hmem, _⟩
          exact not_file_and_dir hnd hfn (mem_dirNames_of_mem hmem)
      | cons m rs =>
          rcases isFileAt_extract hf with ⟨sub1, hmem1, hf1⟩
          rcases isDirAt_extract hd with ⟨sub2, hmem2, hd2⟩
          have hee : Entry.dir n sub1 = Entry.dir n sub2 :=
            List.inj_on_of_nodup_map hnd hmem1 hmem2 rfl
          have hsub : sub1 = sub2 := by
            injection hee
          subst hsub
          exact ih (wfList_mem_dir hwfl hmem1) hf1 hd2

theorem goodList_mem_dir : ∀ {cs : List Entry}, goodList cs = true →
    ∀ {n : String} {sub : List Entry}, Entry.dir n sub ∈ cs →
      nameOk n = true ∧ goodList sub = true := by
  intro cs
  induction cs with
  | nil => intro _ n sub h; cases h
  | cons e es ih =>
      intro hg n sub hmem
      rcases List.mem_cons.mp hmem with heq | hmem'
      · subst heq
        rw [goodList, Bool.and_eq_true, Bool.and_eq_true] at hg
        exact ⟨hg.1.1, hg.1.2⟩
      · cases e with
        | file m =>
            rw [goodList, Bool.and_eq_true] at hg
            exact ih hg.2 hmem'
        | dir m s2 =>
            rw [goodList, Bool.and_eq_true, Bool.and_eq_true] at hg
            exact ih hg.2 hmem'

theorem goodList_fileName : ∀ {cs : List Entry}, goodList cs = true →
    ∀ {f : String}, f ∈ fileNames cs → nameOk f = true := by
  intro cs
  induction cs with
  | nil => intro _ f h; cases h
  | cons e es ih =>
      intro hg f hmem
      cases e with
      | file m =>
          rw [goodList, Bool.and_eq_true] at hg
          rw [fileNames_cons_file] at hmem
          rcases List.mem_cons.mp hmem with heq | hmem'
          · subst heq; exact hg.1
          · exact ih hg.2 hmem'
      | dir m s2 =>
          rw [goodList, Bool.and_eq_true, Bool.and_eq_true] at hg
          rw [fileNames_cons_dir] at hmem
          exact ih hg.2 hmem

theorem goodList_last_of_isFileAt : ∀ {p : List String} {f : String} {cs : List Entry},
    goodList cs = true → isFileAt cs (p ++ [f]) = true → nameOk f = true := by
  intro p
  induction p with
  | nil =>
      intro f cs hg hf
      exact goodList_fileName hg (isFileAt_single.mp hf)
  | cons n p' ih =>
      intro f cs hg hf
      rw [List.cons_append] at hf
      rcases show ∃ m rs, p' ++ [f] = m :: rs by
          cases p' with
          | nil => exact ⟨f, [], rfl⟩
          | cons x xs => exact ⟨x, xs ++ [f], rfl⟩ with ⟨m, rs, hrw⟩
      rw [hrw] at hf
      rcases isFileAt_extract hf with ⟨sub, hmem, hsub⟩
      rw [← hrw] at hsub
      exact ih (goodList_mem_dir hg hmem).2 hsub

theorem goodList_last_of_isDirAt : ∀ {r : List String} {n : String} {cs : List Entry},
    goodList cs = true → isDirAt cs (r ++ [n]) = true → nameOk n = true := by
  intro r
  induction r with
  | nil =>
      intro n cs hg hd
      rcases isDirAt_extract hd with ⟨sub, hmem, _⟩
      exact (goodList_mem_dir hg hmem).1
  | cons m r' ih =>
      intro n cs hg hd
      rw [List.cons_append] at hd
      rcases isDirAt_extract hd with ⟨sub, hmem, hsub⟩
      exact ih (goodList_mem_dir hg hmem).2 hsub

/-! Membership in the tagged file rows, and erasure of tags. -/

theorem mem_fileTagRows {E rel : List String} {cs : List Entry}
    {x : List String × String} :
    x ∈ fileTagRows E rel cs ↔
      ∃ f, f ∈ fileNames cs ∧ fileExcluded E (rel ++ [f]) = false ∧
        x = (rel ++ [f], fileRow rel.length f) := by
  constructor
  · intro h
    rw [fileTagRows] at h
    rcases List.mem_map.mp h with ⟨f, hf, hx⟩
    rcases List.mem_filter.mp hf with ⟨hf1, hf2⟩
    refine ⟨f, (List.mem_insertionSort pyLeRel).mp hf1, ?_, hx.symm⟩
    simpa using hf2
  · intro ⟨f, hf1, hf2, hx⟩
    rw [fileTagRows]
    refine List.mem_map.mpr ⟨f, ?_, hx.symm⟩
    refine List.mem_filter.mpr ⟨(List.mem_insertionSort pyLeRel).mpr hf1, ?_⟩
    simp [hf2]

theorem map_snd_walkEntriesTag (E st rel : List String) (cs : List Entry) :
    (walkEntriesTag E st rel cs).map Prod.snd = walkEntries E st rel cs := by
  induction rel, cs using walkEntriesTag.induct E st with
  | case1 rel => simp [walkEntriesTag, walkEntries]
  | case2 rel n es ih => rw [walkEntriesTag, walkEntries]; exact ih
  | case3 rel n sub es ih1 ih2 =>
      rw [walkEntriesTag, walkEntries]
      by_cases hex : dirExcluded E (st ++ (rel ++ [n])) (rel ++ [n]) = true
      · simp [hex, ih2]
      · simp [hex, ih1, ih2, fileTagRows, sortedFileRows, List.map_map,
          Function.comp]

theorem map_snd_gen_tagged (startParts : List String) (disk : List Entry)
    (exclude_dirs : List String) :
    (generate_directory_tree_tagged startParts disk exclude_dirs).map Prod.snd =
      generate_directory_tree startParts disk exclude_dirs := by
  rw [generate_directory_tree_tagged, generate_directory_tree]
  by_cases hex : dirExcluded exclude_dirs startParts [] = true
  · simp [hex]
  · simp [hex, map_snd_walkEntriesTag, fileTagRows, sortedFileRows,
      List.map_map, Function.comp]

/-! The tags produced below a directory all extend that directory's relative
path by a subdirectory name of its listing. -/

theorem walkEntriesTag_shape (E st rel : List String) (cs : List Entry) :
    ∀ q l, (q, l) ∈ walkEntriesTag E st rel cs →
      ∃ m s, q = rel ++ m :: s ∧ m ∈ dirNames cs := by
  induction rel, cs using walkEntriesTag.induct E st with
  | case1 rel => simp [walkEntriesTag]
  | case2 rel n es ih =>
      intro q l h
      rw [walkEntriesTag] at h
      rcases ih q l h with ⟨m, s, h1, h2⟩
      exact ⟨m, s, h1, by rw [dirNames_cons_file]; exact h2⟩
  | case3 rel n sub es ih1 ih2 =>
      intro q l h
      have hnmem : n ∈ dirNames (Entry.dir n sub :: es) := by
        rw [dirNames_cons_dir]; exact List.mem_cons_self _ _
      rw [walkEntriesTag] at h
      rcases List.mem_append.mp h with h | h
      · split at h
        · cases h
        · rcases List.mem_cons.mp h with h | h
          · rw [Prod.mk.injEq] at h
            exact ⟨n, [], h.1, hnmem⟩
          · rcases List.mem_append.mp h with h | h
            · rcases mem_fileTagRows.mp h with ⟨f, _, _, hx⟩
              rw [Prod.mk.injEq] at hx
              exact ⟨n, [f], by rw [hx.1, append_cons_eq], hnmem⟩
            · rcases ih1 q l h with ⟨m', s', h1, _⟩
              exact ⟨n, m' :: s', by rw [h1, append_cons_eq], hnmem⟩
      · rcases ih2 q l h with ⟨m, s, h1, h2⟩
        refine ⟨m, s, h1, ?_⟩
        rw [dirNames_cons_dir]
        exact List.mem_cons_of_mem _ h2

/-- Soundness of the instrumented walk below a non-excluded directory at
relative path `rel`: every tagged line comes either from a reachable
directory whose whole chain below `rel` passed the exclusion test (and the
line is that directory's header row), or from a reachable file whose
directory chain passed the test and which itself passed the file exclusion
test (and the line is that file's row at its directory's depth). -/
theorem walkEntriesTag_sound (E st rel : List String) (cs : List Entry) :
    ∀ q l, (q, l) ∈ walkEntriesTag E st rel cs →
      ∃ s, s ≠ [] ∧ q = rel ++ s ∧
        ((isDirAt cs s = true ∧
          (∀ t, t <+: s → t ≠ [] →
            dirExcluded E (st ++ rel ++ t) (rel ++ t) = false) ∧
          l = dirRow (rel ++ s)) ∨
         (∃ p f, s = p ++ [f] ∧ isFileAt cs s = true ∧
          (∀ t, t <+: p → t ≠ [] →
            dirExcluded E (st ++ rel ++ t) (rel ++ t) = false) ∧
          fileExcluded E (rel ++ s) = false ∧
          l = fileRow (rel.length + p.length) f)) := by
  induction rel, cs using walkEntriesTag.induct E st with
  | case1 rel => simp [walkEntriesTag]
  | case2 rel f0 es ih =>
      intro q l h
      rw [walkEntriesTag] at h
      rcases ih q l h with ⟨s, hs0, hs1, hcase⟩
      refine ⟨s, hs0, hs1, ?_⟩
      rcases hcase with ⟨h1, h2, h3⟩ | ⟨p, f, h1, h2, h3, h4, h5⟩
      · exact Or.inl ⟨isDirAt_cons_weaken h1, h2, h3⟩
      · exact Or.inr ⟨p, f, h1, isFileAt_cons_weaken h2, h3, h4, h5⟩
  | case3 rel n sub es ih1 ih2 =>
      intro q l h
      rw [walkEntriesTag] at h
      rcases List.mem_append.mp h with h | h
      · split at h
        next hex => exact absurd h (List.not_mem_nil _)
        next hex =>
          have hexf : dirExcluded E (st ++ rel ++ [n]) (rel ++ [n]) = false :=
            Bool.eq_false_iff.mpr hex
          rcases List.mem_cons.mp h with h | h
          · rw [Prod.mk.injEq] at h
            refine ⟨[n], by simp, h.1, Or.inl ⟨?_, ?_, ?_⟩⟩
            · exact isDirAt_intro (List.mem_cons_self _ _) (isDirAt_nil sub)
            · intro t ht htne
              rw [prefix_singleton ht htne]
              exact hexf
            · exact h.2
          · rcases List.mem_append.mp h with h | h
            · rcases mem_fileTagRows.mp h with ⟨f, hfn, hfex, hx⟩
              rw [Prod.mk.injEq] at hx
              refine ⟨[n, f], by simp, by rw [hx.1, append_cons_eq],
                Or.inr ⟨[n], f, rfl, ?_, ?_, ?_, ?_⟩⟩
              · exact isFileAt_intro_deep (List.mem_cons_self _ _)
                  (isFileAt_single.mpr hfn)
              · intro t ht htne
                rw [prefix_singleton ht htne]
                exact hexf
              · rw [← append_cons_eq]
                exact hfex
              · rw [hx.2]
                congr 1
                simp
            · rcases ih1 q l h with ⟨s', hs0, hs1, hcase⟩
              refine ⟨n :: s', by simp, by rw [hs1, append_cons_eq], ?_⟩
              rcases hcase with ⟨h1, h2, h3⟩ | ⟨p', f, h1, h2, h3, h4, h5⟩
              · refine Or.inl ⟨isDirAt_intro (List.mem_cons_self _ _) h1, ?_, ?_⟩
                · intro t ht htne
                  rcases prefix_cons_nonnil ht htne with ⟨t', rfl, ht'⟩
                  by_cases ht'e : t' = []
                  · subst ht'e
                    exact hexf
                  · simpa using h2 t' ht' ht'e
                · rw [h3, append_cons_eq]
              · obtain ⟨m, rs, hs'⟩ : ∃ m rs, s' = m :: rs := by
                  cases s' with
                  | nil => cases hs0 rfl
                  | cons a b => exact ⟨a, b, rfl⟩
                refine Or.inr ⟨n :: p', f, by rw [h1]; rfl, ?_, ?_, ?_, ?_⟩
                · rw [hs']
                  exact isFileAt_intro_deep (List.mem_cons_self _ _) (hs' ▸ h2)
                · intro t ht htne
                  rcases prefix_cons_nonnil ht htne with ⟨t', rfl, ht'⟩
                  by_cases ht'e : t' = []
                  · subst ht'e
                    exact hexf
                  · simpa using h3 t' ht' ht'e
                · rw [← append_cons_eq]
                  exact h4
                · rw [h5]
                  congr 1
                  simp
                  omega
      · rcases ih2 q l h with ⟨s, hs0, hs1, hcase⟩
        refine ⟨s, hs0, hs1, ?_⟩
        rcases hcase with ⟨h1, h2, h3⟩ | ⟨p, f, h1, h2, h3, h4, h5⟩
        · exact Or.inl ⟨isDirAt_cons_weaken h1, h2, h3⟩
        · exact Or.inr ⟨p, f, h1, isFileAt_cons_weaken h2, h3, h4, h5⟩

theorem concat_is_cons {α : Type} (p : List α) (f : α) :
    ∃ m rs, p ++ [f] = m :: rs := by
  cases p with
  | nil => exact ⟨f, [], rfl⟩
  | cons x xs => exact ⟨x, xs ++ [f], rfl⟩

theorem isDirAt_nil_entries : ∀ (n : String) (rest : List String),
    isDirAt [] (n :: rest) = false := fun _ _ => rfl

theorem isFileAt_nil_entries : ∀ (s : List String), s ≠ [] → isFileAt [] s = false
  | [_], _ => rfl
  | _ :: _ :: _, _ => rfl

/-- Completeness for directories: a reachable directory below `rel` whose
whole chain passes the exclusion test contributes its header row (with its
tag) to the instrumented walk. -/
theorem walkEntriesTag_complete_dir (E st rel : List String) (cs : List Entry) :
    ∀ s, s ≠ [] → isDirAt cs s = true →
      (∀ t, t <+: s → t ≠ [] →
        dirExcluded E (st ++ rel ++ t) (rel ++ t) = false) →
      (rel ++ s, dirRow (rel ++ s)) ∈ walkEntriesTag E st rel cs := by
  induction rel, cs using walkEntriesTag.induct E st with
  | case1 rel =>
      intro s hs0 hdir _
      cases s with
      | nil => cases hs0 rfl
      | cons n rest => rw [isDirAt_nil_entries] at hdir; cases hdir
  | case2 rel f0 es ih =>
      intro s hs0 hdir hchain
      rw [walkEntriesTag]
      refine ih s hs0 ?_ hchain
      cases s with
      | nil => cases hs0 rfl
      | cons n rest =>
          rcases isDirAt_extract hdir with ⟨sub, hmem, hsub⟩
          rcases List.mem_cons.mp hmem with heq | hmem'
          · exact Entry.noConfusion heq
          · exact isDirAt_intro hmem' hsub
  | case3 rel n sub es ih1 ih2 =>
      intro s hs0 hdir hchain
      cases s with
      | nil => cases hs0 rfl
      | cons m rest =>
          rw [walkEntriesTag]
          rcases isDirAt_extract hdir with ⟨sub', hmem, hsub⟩
          rcases List.mem_cons.mp hmem with heq | hmem'
          · injection heq with hmn hsubeq
            subst hmn
            subst hsubeq
            have hexf : dirExcluded E (st ++ (rel ++ [m])) (rel ++ [m]) = false := by
              simpa using hchain [m]
                (List.cons_prefix_cons.mpr ⟨rfl, List.nil_prefix⟩) (by simp)
            refine List.mem_append.mpr (Or.inl ?_)
            rw [if_neg (by simp [hexf])]
            cases rest with
            | nil => exact List.mem_cons_self _ _
            | cons r rs =>
                refine List.mem_cons_of_mem _ (List.mem_append.mpr (Or.inr ?_))
                have hch : ∀ t, t <+: r :: rs → t ≠ [] →
                    dirExcluded E (st ++ (rel ++ [m]) ++ t) ((rel ++ [m]) ++ t) =
                      false := by
                  intro t ht htne
                  simpa using hchain (m :: t)
                    (List.cons_prefix_cons.mpr ⟨rfl, ht⟩) (by simp)
                have := ih1 (r :: rs) (by simp) hsub hch
                simpa only [append_cons_eq] using this
          · refine List.mem_append.mpr (Or.inr ?_)
            exact ih2 (m :: rest) hs0 (isDirAt_intro hmem' hsub) hchain

/-- Completeness for files: a reachable file below `rel` whose directory
chain passes the exclusion test and which itself passes the file exclusion
test contributes its row (with its tag) to the instrumented walk.  The
parent directory chain `p` is non-empty here: files directly inside the
directory at `rel` are emitted by that directory's own visit, not by the
walk below it. -/
theorem walkEntriesTag_complete_file (E st rel : List String) (cs : List Entry) :
    ∀ p f, p ≠ [] → isFileAt cs (p ++ [f]) = true →
      (∀ t, t <+: p → t ≠ [] →
        dirExcluded E (st ++ rel ++ t) (rel ++ t) = false) →
      fileExcluded E (rel ++ (p ++ [f])) = false →
      (rel ++ (p ++ [f]), fileRow (rel.length + p.length) f) ∈
        walkEntriesTag E st rel cs := by
  induction rel, cs using walkEntriesTag.induct E st with
  | case1 rel =>
      intro p f hp0 hfile _ _
      rcases concat_is_cons p f with ⟨m, rs, hrw⟩
      rw [hrw, isFileAt_nil_entries _ (by simp)] at hfile
      cases hfile
  | case2 rel f0 es ih =>
      intro p f hp0 hfile hchain hfex
      rw [walkEntriesTag]
      refine ih p f hp0 ?_ hchain hfex
      obtain ⟨m, p', rfl⟩ : ∃ m p', p = m :: p' := by
        cases p with
        | nil => cases hp0 rfl
        | cons x xs => exact ⟨x, xs, rfl⟩
      rw [List.cons_append] at hfile ⊢
      rcases concat_is_cons p' f with ⟨x, xs, hrw⟩
      rw [hrw] at hfile ⊢
      rcases isFileAt_extract hfile with ⟨sub, hmem, hsub⟩
      rcases List.mem_cons.mp hmem with heq | hmem'
      · exact Entry.noConfusion heq
      · exact isFileAt_intro_deep hmem' hsub
  | case3 rel n sub es ih1 ih2 =>
      intro p f hp0 hfile hchain hfex
      obtain ⟨m, p', rfl⟩ : ∃ m p', p = m :: p' := by
        cases p with
        | nil => cases hp0 rfl
        | cons x xs => exact ⟨x, xs, rfl⟩
      rw [walkEntriesTag]
      rw [List.cons_append] at hfile
      rcases concat_is_cons p' f with ⟨x, xs, hrw⟩
      rw [hrw] at hfile
      rcases isFileAt_extract hfile with ⟨sub', hmem, hsub⟩
      rw [← hrw] at hsub
      rcases List.mem_cons.mp hmem with heq | hmem'
      · injection heq with hmn hsubeq
        subst hmn
        subst hsubeq
        have hexf : dirExcluded E (st ++ (rel ++ [m])) (rel ++ [m]) = false := by
          simpa using hchain [m]
            (List.cons_prefix_cons.mpr ⟨rfl, List.nil_prefix⟩) (by simp)
        refine List.mem_append.mpr (Or.inl ?_)
        rw [if_neg (by simp [hexf])]
        refine List.mem_cons_of_mem _ ?_
        cases p' with
        | nil =>
            refine List.mem_append.mpr (Or.inl ?_)
            refine mem_fileTagRows.mpr ⟨f, ?_, ?_, ?_⟩
            · exact isFileAt_single.mp (by simpa using hsub)
            · simpa using hfex
            · simp
        | cons r rs =>
            refine List.mem_append.mpr (Or.inr ?_)
            have hch : ∀ t, t <+: r :: rs → t ≠ [] →
                dirExcluded E (st ++ (rel ++ [m]) ++ t) ((rel ++ [m]) ++ t) =
                  false := by
              intro t ht htne
              simpa using hchain (m :: t)
                (List.cons_prefix_cons.mpr ⟨rfl, ht⟩) (by simp)
            have hfex' : fileExcluded E ((rel ++ [m]) ++ ((r :: rs) ++ [f])) =
                false := by
              simpa using hfex
            have := ih1 (r :: rs) f (by simp) hsub hch hfex'
            have hlen : (rel ++ [m]).length + (r :: rs).length =
                rel.length + (m :: r :: rs).length := by
              simp
              omega
            rw [hlen] at this
            simpa only [append_cons_eq, List.cons_append] using this
      · refine List.mem_append.mpr (Or.inr ?_)
        have hfile' : isFileAt es ((m :: p') ++ [f]) = true := by
          rw [List.cons_append, hrw]
          exact isFileAt_intro_deep hmem' (hrw ▸ hsub)
        exact ih2 (m :: p') f hp0 hfile' hchain hfex

theorem fileNames_sublist_allNames : ∀ (cs : List Entry),
    List.Sublist (fileNames cs) (allNames cs) := by
  intro cs
  induction cs with
  | nil => simp [fileNames, allNames]
  | cons e es ih =>
      cases e with
      | file n => rw [fileNames_cons_file]; exact List.Sublist.cons₂ _ ih
      | dir n sub => rw [fileNames_cons_dir]; exact List.Sublist.cons _ ih

theorem nodup_fileNames {cs : List Entry} (h : (allNames cs).Nodup) :
    (fileNames cs).Nodup :=
  List.Nodup.sublist (fileNames_sublist_allNames cs) h

theorem nodup_surviving (E rel : List String) {cs : List Entry}
    (h : (allNames cs).Nodup) :
    ((List.insertionSort pyLeRel (fileNames cs)).filter
      (fun f => !fileExcluded E (rel ++ [f]))).Nodup :=
  List.Nodup.filter _
    (((List.perm_insertionSort pyLeRel (fileNames cs)).nodup_iff).mpr
      (nodup_fileNames h))

theorem map_fst_fileTagRows (E rel : List String) (cs : List Entry) :
    (fileTagRows E rel cs).map Prod.fst =
      ((List.insertionSort pyLeRel (fileNames cs)).filter
        (fun f => !fileExcluded E (rel ++ [f]))).map (fun f => rel ++ [f]) := by
  rw [fileTagRows, List.map_map]
  rfl

/-- Distinct entities have distinct tags: under well-formedness the tag list
of the instrumented walk has no duplicates. -/
theorem walkEntriesTag_tags_nodup (E st rel : List String) (cs : List Entry) :
    wfRoot cs = true → ((walkEntriesTag E st rel cs).map Prod.fst).Nodup := by
  induction rel, cs using walkEntriesTag.induct E st with
  | case1 rel => intro _; simp [walkEntriesTag]
  | case2 rel f0 es ih =>
      intro hwf
      rw [walkEntriesTag]
      exact ih (wfRoot_cons hwf)
  | case3 rel n sub es ih1 ih2 =>
      intro hwf
      have hwfes : wfRoot es = true := wfRoot_cons hwf
      have hnd : (entryName (Entry.dir n sub) :: allNames es).Nodup := by
        rw [wfRoot, Bool.and_eq_true, decide_eq_true_eq] at hwf
        exact hwf.1
      have hwfsub : wfRoot sub = true := by
        rw [wfRoot, Bool.and_eq_true] at hwf
        exact wfList_mem_dir hwf.2 (List.mem_cons_self _ _)
      have hndsub : (allNames sub).Nodup := by
        rw [wfRoot, Bool.and_eq_true, decide_eq_true_eq] at hwfsub
        exact hwfsub.1
      have hn_not_es : n ∉ dirNames es := fun hmem =>
        (List.nodup_cons.mp hnd).1 (mem_allNames_of_mem_dirNames hmem)
      rw [walkEntriesTag, List.map_append]
      by_cases hex : dirExcluded E (st ++ rel ++ [n]) (rel ++ [n]) = true
      · rw [if_pos hex]
        simpa using ih2 hwfes
      · rw [if_neg hex]
        simp only [List.map_append, List.map_cons]
        have hmemB : ∀ q ∈ (walkEntriesTag E st (rel ++ [n]) sub).map Prod.fst,
            ∃ m' s', q = rel ++ n :: m' :: s' ∧ m' ∈ dirNames sub := by
          intro q hq
          rcases List.mem_map.mp hq with ⟨x, hx, hxq⟩
          rcases walkEntriesTag_shape E st (rel ++ [n]) sub x.1 x.2 (by simpa using hx)
            with ⟨m', s', h1, h2⟩
          exact ⟨m', s', by rw [← hxq, h1, append_cons_eq], h2⟩
        have hmemA : ∀ q ∈ (fileTagRows E (rel ++ [n]) sub).map Prod.fst,
            ∃ f, q = rel ++ [n, f] ∧ f ∈ fileNames sub := by
          intro q hq
          rw [map_fst_fileTagRows] at hq
          rcases List.mem_map.mp hq with ⟨f, hf, hfq⟩
          rcases List.mem_filter.mp hf with ⟨hf1, _⟩
          exact ⟨f, by rw [← hfq, append_cons_eq], (List.mem_insertionSort pyLeRel).mp hf1⟩
        have hmemC : ∀ q ∈ (walkEntriesTag E st rel es).map Prod.fst,
            ∃ m' s', q = rel ++ m' :: s' ∧ m' ∈ dirNames es := by
          intro q hq
          rcases List.mem_map.mp hq with ⟨x, hx, hxq⟩
          rcases walkEntriesTag_shape E st rel es x.1 x.2 (by simpa using hx)
            with ⟨m', s', h1, h2⟩
          exact ⟨m', s', by rw [← hxq, h1], h2⟩
        refine List.nodup_append.mpr ⟨?_, ih2 hwfes, ?_⟩
        · refine List.nodup_append.mpr ⟨?_, ih1 hwfsub, ?_⟩
          · refine List.nodup_cons.mpr ⟨?_, ?_⟩
            · intro hmem
              rcases hmemA _ hmem with ⟨f, hq, _⟩
              have := congrArg List.length hq
              simp at this
            · rw [map_fst_fileTagRows]
              refine List.Nodup.map ?_ (nodup_surviving E (rel ++ [n]) hndsub)
              intro a b hab
              have := List.append_cancel_left hab
              simpa using this
          · intro q hq hqB
            rcases hmemB _ hqB with ⟨m', s', hqm, hm'⟩
            rcases List.mem_cons.mp hq with h | h
            · rw [h] at hqm
              have := congrArg List.length hqm
              simp at this
            · rcases hmemA _ h with ⟨f, hqf, hfn⟩
              rw [hqf] at hqm
              rcases List.cons.inj (List.append_cancel_left hqm) with ⟨_, h4⟩
              rcases List.cons.inj h4 with ⟨h5, _⟩
              rw [h5] at hfn
              exact not_file_and_dir hndsub hfn hm'
        · intro q hq hqC
          rcases hmemC _ hqC with ⟨m', s', hqm, hm'⟩
          rcases List.mem_append.mp hq with h | h
          · rcases List.mem_cons.mp h with h | h
            · rw [h] at hqm
              have h2 := List.append_cancel_left hqm
              rcases List.cons.inj h2 with ⟨h3, _⟩
              exact hn_not_es (h3 ▸ hm')
            · rcases hmemA _ h with ⟨f, hqf, _⟩
              rw [hqf] at hqm
              rcases List.cons.inj (List.append_cancel_left hqm) with ⟨h3, _⟩
              exact hn_not_es (h3 ▸ hm')
          · rcases hmemB _ h with ⟨m2, s2, hq2, _⟩
            rw [hq2] at hqm
            rcases List.cons.inj (List.append_cancel_left hqm) with ⟨h3, _⟩
            exact hn_not_es (h3 ▸ hm')

/-- Top-level soundness: every tagged line of the tree is the root marker,
a reachable directory whose whole ancestor chain (the root included) passed
the exclusion test, or a reachable file whose ancestor chain passed the test
and which passed the file exclusion test. -/
theorem mem_gen_tagged {startParts : List String} {disk : List Entry}
    {E : List String} {q : List String} {l : String}
    (h : (q, l) ∈ generate_directory_tree_tagged startParts disk E) :
    dirExcluded E startParts [] = false ∧
      ((isDirAt disk q = true ∧
        (∀ t, t <+: q → dirExcluded E (startParts ++ t) t = false) ∧
        l = dirRow q) ∨
       (∃ p f, q = p ++ [f] ∧ isFileAt disk q = true ∧
        (∀ t, t <+: p → dirExcluded E (startParts ++ t) t = false) ∧
        fileExcluded E q = false ∧ l = fileRow p.length f)) := by
  rw [generate_directory_tree_tagged] at h
  by_cases hex : dirExcluded E startParts [] = true
  · rw [if_pos hex] at h
    cases h
  · have hexf : dirExcluded E startParts [] = false := Bool.eq_false_iff.mpr hex
    rw [if_neg hex] at h
    refine ⟨hexf, ?_⟩
    rcases List.mem_append.mp h with h | h
    · rcases List.mem_cons.mp h with h | h
      · rw [Prod.mk.injEq] at h
        refine Or.inl ⟨?_, ?_, ?_⟩
        · rw [h.1]
          exact isDirAt_nil disk
        · intro t ht
          rw [h.1] at ht
          rw [List.prefix_nil] at ht
          subst ht
          simpa using hexf
        · rw [h.1, h.2]
      · rcases mem_fileTagRows.mp h with ⟨f, hfn, hfex, hx⟩
        rw [Prod.mk.injEq] at hx
        have hq : q = [f] := by simpa using hx.1
        refine Or.inr ⟨[], f, by simpa using hq, ?_, ?_, ?_, ?_⟩
        · rw [hq]
          exact isFileAt_single.mpr hfn
        · intro t ht
          rw [List.prefix_nil] at ht
          subst ht
          simpa using hexf
        · rw [hq]
          simpa using hfex
        · exact hx.2
    · rcases walkEntriesTag_sound E startParts [] disk q l h with ⟨s, hs0, hs1, hcase⟩
      have hqs : q = s := by simpa using hs1
      subst hqs
      rcases hcase with ⟨h1, h2, h3⟩ | ⟨p, f, h1, h2, h3, h4, h5⟩
      · refine Or.inl ⟨h1, ?_, by simpa using h3⟩
        intro t ht
        by_cases hte : t = []
        · subst hte
          simpa using hexf
        · simpa using h2 t ht hte
      · refine Or.inr ⟨p, f, h1, h2, ?_, by simpa using h4, by simpa using h5⟩
        intro t ht
        by_cases hte : t = []
        · subst hte
          simpa using hexf
        · simpa using h3 t ht hte

/-- Top-level completeness for directories: a reachable directory whose
whole ancestor chain passes the exclusion test gets its header row (the root
gets its `.` marker). -/
theorem gen_tagged_complete_dir {startParts : List String} {disk : List Entry}
    {E : List String} {q : List String}
    (hdir : isDirAt disk q = true)
    (hchain : ∀ t, t <+: q → dirExcluded E (startParts ++ t) t = false) :
    (q, dirRow q) ∈ generate_directory_tree_tagged startParts disk E := by
  have hexf : dirExcluded E startParts [] = false := by
    simpa using hchain [] List.nil_prefix
  rw [generate_directory_tree_tagged, if_neg (by simp [hexf])]
  cases q with
  | nil => exact List.mem_append.mpr (Or.inl (List.mem_cons_self _ _))
  | cons m rest =>
      refine List.mem_append.mpr (Or.inr ?_)
      have := walkEntriesTag_complete_dir E startParts [] disk (m :: rest)
        (by simp) hdir ?_
      · simpa using this
      · intro t ht htne
        simpa using hchain t ht

/-- Top-level completeness for files: a reachable file whose ancestor chain
passes the exclusion test and which itself passes the file exclusion test
gets its row at its directory's depth. -/
theorem gen_tagged_complete_file {startParts : List String} {disk : List Entry}
    {E : List String} {p : List String} {f : String}
    (hfile : isFileAt disk (p ++ [f]) = true)
    (hchain : ∀ t, t <+: p → dirExcluded E (startParts ++ t) t = false)
    (hfex : fileExcluded E (p ++ [f]) = false) :
    (p ++ [f], fileRow p.length f) ∈
      generate_directory_tree_tagged startParts disk E := by
  have hexf : dirExcluded E startParts [] = false := by
    simpa using hchain [] List.nil_prefix
  rw [generate_directory_tree_tagged, if_neg (by simp [hexf])]
  cases p with
  | nil =>
      refine List.mem_append.mpr (Or.inl (List.mem_cons_of_mem _ ?_))
      refine mem_fileTagRows.mpr ⟨f, ?_, ?_, ?_⟩
      · exact isFileAt_single.mp (by simpa using hfile)
      · simpa using hfex
      · simp
  | cons m rest =>
      refine List.mem_append.mpr (Or.inr ?_)
      have := walkEntriesTag_complete_file E startParts [] disk (m :: rest) f
        (by simp) hfile ?_ (by simpa using hfex)
      · simpa using this
      · intro t ht htne
        simpa using hchain t ht

/-- Top-level tag distinctness under well-formedness. -/
theorem gen_tagged_tags_nodup {startParts : List String} {disk : List Entry}
    {E : List String} (hwf : wfRoot disk = true) :
    ((generate_directory_tree_tagged startParts disk E).map Prod.fst).Nodup := by
  have hnd : (allNames disk).Nodup := by
    rw [wfRoot, Bool.and_eq_true, decide_eq_true_eq] at hwf
    exact hwf.1
  rw [generate_directory_tree_tagged]
  by_cases hex : dirExcluded E startParts [] = true
  · rw [if_pos hex]
    simp
  · rw [if_neg hex]
    simp only [List.map_append, List.map_cons]
    have hmemA : ∀ q ∈ (fileTagRows E [] disk).map Prod.fst,
        ∃ f, q = [f] ∧ f ∈ fileNames disk := by
      intro q hq
      rw [map_fst_fileTagRows] at hq
      rcases List.mem_map.mp hq with ⟨f, hf, hfq⟩
      rcases List.mem_filter.mp hf with ⟨hf1, _⟩
      exact ⟨f, by rw [← hfq]; rfl, (List.mem_insertionSort pyLeRel).mp hf1⟩
    have hmemB : ∀ q ∈ (walkEntriesTag E startParts [] disk).map Prod.fst,
        ∃ m' s', q = m' :: s' ∧ m' ∈ dirNames disk := by
      intro q hq
      rcases List.mem_map.mp hq with ⟨x, hx, hxq⟩
      rcases walkEntriesTag_shape E startParts [] disk x.1 x.2 (by simpa using hx)
        with ⟨m', s', h1, h2⟩
      exact ⟨m', s', by rw [← hxq, h1]; rfl, h2⟩
    refine List.nodup_append.mpr ⟨?_, walkEntriesTag_tags_nodup E startParts [] disk hwf, ?_⟩
    · refine List.nodup_cons.mpr ⟨?_, ?_⟩
      · intro hmem
        rcases hmemA _ hmem with ⟨f, hq, _⟩
        cases hq
      · rw [map_fst_fileTagRows]
        refine List.Nodup.map ?_ (nodup_surviving E [] hnd)
        intro a b hab
        simpa using hab
    · intro q hq hqB
      rcases hmemB _ hqB with ⟨m', s', hqm, hm'⟩
      rcases List.mem_cons.mp hq with h | h
      · rw [h] at hqm
        cases hqm
      · rcases hmemA _ h with ⟨f, hqf, hfn⟩
        rw [hqf] at hqm
        rcases List.cons.inj hqm with ⟨h3, h4⟩
        rw [h3] at hfn
        exact not_file_and_dir hnd hfn hm'

/-- C2: a directory that matches an exclusion pattern (by glob match on its
full path or by name containment in its relative path) is pruned: nothing
strictly below it appears in the (tagged) output, while every shallower
directory on the branch whose own chain passed the test still gets its
header row.  Patterns are restricted to `validPattern` entries, on which
the matcher model agrees with `PurePath.match`.  Erasing the tags gives
exactly the produced line sequence. -/
theorem C2_exclusion_prunes (startParts exclude_dirs : List String)
    (disk : List Entry) (P : List String)
    (_hpats : ∀ e ∈ exclude_dirs, validPattern e = true)
    (hdir : isDirAt disk P = true)
    (hexcl : dirExcluded exclude_dirs (startParts ++ P) P = true) :
    (∀ q l, (q, l) ∈ generate_directory_tree_tagged startParts disk exclude_dirs →
      ¬(P <+: q ∧ P ≠ q)) ∧
    (∀ q, q <+: P → q ≠ P →
      (∀ t, t <+: q → dirExcluded exclude_dirs (startParts ++ t) t = false) →
      (q, dirRow q) ∈ generate_directory_tree_tagged startParts disk exclude_dirs) ∧
    (generate_directory_tree_tagged startParts disk exclude_dirs).map Prod.snd =
      generate_directory_tree startParts disk exclude_dirs := by
  refine ⟨?_, ?_, map_snd_gen_tagged _ _ _⟩
  · rintro q l hmem ⟨hpre, hne⟩
    rcases mem_gen_tagged hmem with ⟨hroot, hcase⟩
    rcases hcase with ⟨_, hchain, _⟩ | ⟨p, f, hq, _, hchain, _, _⟩
    · have hc := hchain P hpre
      rw [hc] at hexcl
      exact Bool.noConfusion hexcl
    · rcases prefix_concat_cases (hq ▸ hpre) with h | h
      · have hc := hchain P h
        rw [hc] at hexcl
        exact Bool.noConfusion hexcl
      · exact hne (h.trans hq.symm)
  · intro q hqP hqne hchain
    exact gen_tagged_complete_dir (isDirAt_ancestor hdir hqP) hchain

theorem C2_exclusion_prunes_witness :
    (∀ e ∈ ["/repo/build"], validPattern e = true) ∧
    isDirAt [Entry.dir "build" [Entry.file "x.o"], Entry.file "a.txt"] ["build"] = true ∧
    dirExcluded ["/repo/build"] (["/", "repo"] ++ ["build"]) ["build"] = true ∧
    ((∀ q l, (q, l) ∈ generate_directory_tree_tagged ["/", "repo"]
        [Entry.dir "build" [Entry.file "x.o"], Entry.file "a.txt"] ["/repo/build"] →
      ¬(["build"] <+: q ∧ ["build"] ≠ q)) ∧
    (∀ q, q <+: ["build"] → q ≠ ["build"] →
      (∀ t, t <+: q → dirExcluded ["/repo/build"] (["/", "repo"] ++ t) t = false) →
      (q, dirRow q) ∈ generate_directory_tree_tagged ["/", "repo"]
        [Entry.dir "build" [Entry.file "x.o"], Entry.file "a.txt"] ["/repo/build"]) ∧
    (generate_directory_tree_tagged ["/", "repo"]
        [Entry.dir "build" [Entry.file "x.o"], Entry.file "a.txt"] ["/repo/build"]).map Prod.snd =
      generate_directory_tree ["/", "repo"]
        [Entry.dir "build" [Entry.file "x.o"], Entry.file "a.txt"] ["/repo/build"]) :=
  ⟨by decide, by decide, by decide,
    C2_exclusion_prunes ["/", "repo"] ["/repo/build"]
      [Entry.dir "build" [Entry.file "x.o"], Entry.file "a.txt"] ["build"]
      (by decide) (by decide) (by decide)⟩

/-- C5: with no exclusion patterns, every file on disk appears exactly once
in the (tagged) output — tags of distinct entities are distinct, so two
files never merge — and its row is indented one unit per path segment
between it and the root.  Erasing the tags gives exactly the produced line
sequence.  (The code has no separate selected-file input: the walked file
set is the duplicate-free set of files on disk, so de-duplication is
inherent.) -/
theorem C5_file_exactly_once (startParts : List String) (disk : List Entry)
    (p : List String) (f : String)
    (hwf : wfRoot disk = true)
    (hfile : isFileAt disk (p ++ [f]) = true) :
    @List.count (List String × String) instBEqOfDecidableEq
        (p ++ [f], fileRow p.length f)
        (generate_directory_tree_tagged startParts disk []) = 1 ∧
      fileRow p.length f = indentStr (p ++ [f]).length ++ "├── " ++ f ∧
      (generate_directory_tree_tagged startParts disk []).map Prod.snd =
        generate_directory_tree startParts disk [] := by
  refine ⟨?_, ?_, map_snd_gen_tagged _ _ _⟩
  · have hmem := @gen_tagged_complete_file startParts disk [] p f
      hfile (fun t _ => rfl) rfl
    exact List.count_eq_one_of_mem
      (List.Nodup.of_map Prod.fst (gen_tagged_tags_nodup hwf)) hmem
  · simp [fileRow]

theorem C5_file_exactly_once_witness :
    wfRoot [Entry.dir "a" [Entry.file "c.txt"], Entry.file "b.txt"] = true ∧
    isFileAt [Entry.dir "a" [Entry.file "c.txt"], Entry.file "b.txt"]
      (["a"] ++ ["c.txt"]) = true ∧
    (@List.count (List String × String) instBEqOfDecidableEq
        (["a"] ++ ["c.txt"], fileRow (["a"] : List String).length "c.txt")
        (generate_directory_tree_tagged ["repo"]
          [Entry.dir "a" [Entry.file "c.txt"], Entry.file "b.txt"] []) = 1 ∧
      fileRow (["a"] : List String).length "c.txt" =
        indentStr ((["a"] : List String) ++ ["c.txt"]).length ++ "├── " ++ "c.txt" ∧
      (generate_directory_tree_tagged ["repo"]
        [Entry.dir "a" [Entry.file "c.txt"], Entry.file "b.txt"] []).map Prod.snd =
        generate_directory_tree ["repo"]
          [Entry.dir "a" [Entry.file "c.txt"], Entry.file "b.txt"] []) :=
  ⟨by simp [wfRoot, wfList, allNames, entryName], by decide,
    C5_file_exactly_once ["repo"]
      [Entry.dir "a" [Entry.file "c.txt"], Entry.file "b.txt"] ["a"] "c.txt"
      (by simp [wfRoot, wfList, allNames, entryName]) (by decide)⟩

/-- C10: exclusion patterns apply to files too: an excluded file's line is
absent from the output (under well-formedness no line at all carries its
tag), while its parent directory's header and every non-matching sibling
file still appear when the ancestor chain passes the directory test.
Patterns are restricted to `validPattern` entries, on which the matcher
model agrees with `PurePath.match` — in particular an anchored entry never
glob-matches the relative `file_rel_path` of line 113. -/
theorem C10_file_exclusion (startParts exclude_dirs : List String)
    (disk : List Entry) (p : List String) (f : String)
    (_hpats : ∀ e ∈ exclude_dirs, validPattern e = true)
    (hwf : wfRoot disk = true)
    (hfile : isFileAt disk (p ++ [f]) = true)
    (hfex : fileExcluded exclude_dirs (p ++ [f]) = true) :
    (∀ l, (p ++ [f], l) ∉ generate_directory_tree_tagged startParts disk exclude_dirs) ∧
    ((∀ t, t <+: p → dirExcluded exclude_dirs (startParts ++ t) t = false) →
      (p, dirRow p) ∈ generate_directory_tree_tagged startParts disk exclude_dirs) ∧
    (∀ g, isFileAt disk (p ++ [g]) = true →
      fileExcluded exclude_dirs (p ++ [g]) = false →
      (∀ t, t <+: p → dirExcluded exclude_dirs (startParts ++ t) t = false) →
      (p ++ [g], fileRow p.length g) ∈
        generate_directory_tree_tagged startParts disk exclude_dirs) := by
  refine ⟨?_, ?_, ?_⟩
  · intro l hmem
    rcases mem_gen_tagged hmem with ⟨_, hcase⟩
    rcases hcase with ⟨hd, _, _⟩ | ⟨p', f', _, _, _, hfex', _⟩
    · exact not_isFileAt_isDirAt hwf hfile hd
    · rw [hfex] at hfex'
      exact Bool.noConfusion hfex'
  · intro hchain
    exact gen_tagged_complete_dir (isDirAt_of_isFileAt hfile) hchain
  · intro g hg hgex hchain
    exact gen_tagged_complete_file hg hchain hgex

theorem C10_file_exclusion_witness :
    (∀ e ∈ ["sec.txt"], validPattern e = true) ∧
    wfRoot [Entry.dir "a" [Entry.file "sec.txt", Entry.file "ok.txt"]] = true ∧
    isFileAt [Entry.dir "a" [Entry.file "sec.txt", Entry.file "ok.txt"]]
      (["a"] ++ ["sec.txt"]) = true ∧
    fileExcluded ["sec.txt"] (["a"] ++ ["sec.txt"]) = true ∧
    ((∀ l, (["a"] ++ ["sec.txt"], l) ∉ generate_directory_tree_tagged ["repo"]
        [Entry.dir "a" [Entry.file "sec.txt", Entry.file "ok.txt"]] ["sec.txt"]) ∧
    ((∀ t, t <+: ["a"] → dirExcluded ["sec.txt"] (["repo"] ++ t) t = false) →
      (["a"], dirRow ["a"]) ∈ generate_directory_tree_tagged ["repo"]
        [Entry.dir "a" [Entry.file "sec.txt", Entry.file "ok.txt"]] ["sec.txt"]) ∧
    (∀ g, isFileAt [Entry.dir "a" [Entry.file "sec.txt", Entry.file "ok.txt"]]
        (["a"] ++ [g]) = true →
      fileExcluded ["sec.txt"] (["a"] ++ [g]) = false →
      (∀ t, t <+: ["a"] → dirExcluded ["sec.txt"] (["repo"] ++ t) t = false) →
      (["a"] ++ [g], fileRow (["a"] : List String).length g) ∈
        generate_directory_tree_tagged ["repo"]
          [Entry.dir "a" [Entry.file "sec.txt", Entry.file "ok.txt"]] ["sec.txt"])) :=
  ⟨by decide, by simp [wfRoot, wfList, allNames, entryName], by decide, by decide,
    C10_file_exclusion ["repo"] ["sec.txt"]
      [Entry.dir "a" [Entry.file "sec.txt", Entry.file "ok.txt"]] ["a"] "sec.txt"
      (by decide) (by simp [wfRoot, wfList, allNames, entryName]) (by decide)
      (by decide)⟩

theorem string_data_append (a b : String) : (a ++ b).data = a.data ++ b.data :=
  rfl

theorem nameOk_last {n : String} (h : nameOk n = true) :
    n.data ≠ [] ∧ ∃ c, n.data.getLast? = some c ∧ c ≠ '/' := by
  rw [nameOk, Bool.and_eq_true] at h
  have hne : n ≠ "" := by
    intro he
    rw [he] at h
    simp at h
  have hdne : n.data ≠ [] := fun hd => hne (String.ext hd)
  refine ⟨hdne, n.data.getLast hdne, List.getLast?_eq_getLast _ hdne, ?_⟩
  intro hc
  have hmem := List.getLast_mem hdne
  rw [hc] at hmem
  have h2 := h.2
  simp at h2
  exact h2 hmem

theorem dirRow_concat (r : List String) (n : String) :
    dirRow (r ++ [n]) = indentStr (r ++ [n]).length ++ "├── " ++ n ++ "/" := by
  rw [dirRow, List.getLast?_concat]

/-- C8, counterexample: the output need not contain a root marker at all —
when the root itself matches an exclusion pattern the produced line sequence
is empty, so no `.` line at depth 0 is rendered. -/
theorem C8_counterexample :
    generate_directory_tree ["src"] [Entry.file "a"] ["src"] = [] ∧
      "." ∉ generate_directory_tree ["src"] [Entry.file "a"] ["src"] := by
  have h : generate_directory_tree ["src"] [Entry.file "a"] ["src"] = [] := by
    rw [generate_directory_tree, if_pos (by decide)]
  exact ⟨h, by rw [h]; exact List.not_mem_nil _⟩

/-- C8, amended: whenever the root is not excluded, the first output line is
the single `.` root marker, and every tagged line is either that root marker
or consists of the four-space indentation unit repeated once per
nesting-depth level followed by the constant connector `├── ` and the name —
with a trailing `/` exactly for the directory lines (file lines end in the
file name's last character, never `/`, for well-named listings).  Patterns
are restricted to `validPattern` entries, on which the matcher model agrees
with `PurePath.match`.  Erasing the tags gives exactly the produced line
sequence. -/
theorem C8_line_shapes (startParts exclude_dirs : List String) (disk : List Entry)
    (_hpats : ∀ e ∈ exclude_dirs, validPattern e = true)
    (hroot : dirExcluded exclude_dirs startParts [] = false)
    (hgood : goodList disk = true) :
    (generate_directory_tree startParts disk exclude_dirs).head? = some "." ∧
    (∀ q l, (q, l) ∈ generate_directory_tree_tagged startParts disk exclude_dirs →
      (q = [] ∧ l = ".") ∨
      (∃ r n, q = r ++ [n] ∧ isDirAt disk q = true ∧
        l = indentStr q.length ++ "├── " ++ n ++ "/" ∧
        l.data.getLast? = some '/') ∨
      (∃ r n, q = r ++ [n] ∧ isFileAt disk q = true ∧
        l = indentStr q.length ++ "├── " ++ n ∧
        ∃ c, l.data.getLast? = some c ∧ c ≠ '/')) ∧
    (generate_directory_tree_tagged startParts disk exclude_dirs).map Prod.snd =
      generate_directory_tree startParts disk exclude_dirs := by
  refine ⟨?_, ?_, map_snd_gen_tagged _ _ _⟩
  · rw [generate_directory_tree, if_neg (by simp [hroot])]
    rfl
  · intro q l hmem
    rcases mem_gen_tagged hmem with ⟨_, hcase⟩
    rcases hcase with ⟨hd, _, hl⟩ | ⟨p, f, hq, hf, _, _, hl⟩
    · rcases List.eq_nil_or_concat q with hq | ⟨r, n, hq⟩
      · exact Or.inl ⟨hq, by rw [hl, hq]; rfl⟩
      · rw [List.concat_eq_append] at hq
        subst hq
        have hok : nameOk n = true := goodList_last_of_isDirAt hgood hd
        refine Or.inr (Or.inl ⟨r, n, rfl, hd, ?_, ?_⟩)
        · rw [hl, dirRow_concat]
        · rw [hl, dirRow_concat, string_data_append]
          have : ("/" : String).data = ['/'] := rfl
          rw [this, List.getLast?_concat]
    · subst hq
      have hok : nameOk f = true := goodList_last_of_isFileAt hgood hf
      rcases nameOk_last hok with ⟨hdne, c, hc, hcne⟩
      refine Or.inr (Or.inr ⟨p, f, rfl, hf, ?_, c, ?_, hcne⟩)
      · rw [hl, fileRow]
        congr 2
        simp
      · rw [hl, fileRow, string_data_append]
        rw [List.getLast?_append_of_ne_nil _ hdne]
        exact hc

theorem C8_line_shapes_witness :
    (∀ e ∈ ["node_modules"], validPattern e = true) ∧
    dirExcluded ["node_modules"] ["repo"] [] = false ∧
    goodList [Entry.dir "a" [Entry.file "b.txt"]] = true ∧
    ((generate_directory_tree ["repo"] [Entry.dir "a" [Entry.file "b.txt"]]
        ["node_modules"]).head? = some "." ∧
    (∀ q l, (q, l) ∈ generate_directory_tree_tagged ["repo"]
        [Entry.dir "a" [Entry.file "b.txt"]] ["node_modules"] →
      (q = [] ∧ l = ".") ∨
      (∃ r n, q = r ++ [n] ∧
        isDirAt [Entry.dir "a" [Entry.file "b.txt"]] q = true ∧
        l = indentStr q.length ++ "├── " ++ n ++ "/" ∧
        l.data.getLast? = some '/') ∨
      (∃ r n, q = r ++ [n] ∧
        isFileAt [Entry.dir "a" [Entry.file "b.txt"]] q = true ∧
        l = indentStr q.length ++ "├── " ++ n ∧
        ∃ c, l.data.getLast? = some c ∧ c ≠ '/')) ∧
    (generate_directory_tree_tagged ["repo"] [Entry.dir "a" [Entry.file "b.txt"]]
        ["node_modules"]).map Prod.snd =
      generate_directory_tree ["repo"] [Entry.dir "a" [Entry.file "b.txt"]]
        ["node_modules"]) :=
  ⟨by decide, by decide, by simp [goodList, nameOk],
    C8_line_shapes ["repo"] ["node_modules"] [Entry.dir "a" [Entry.file "b.txt"]]
      (by decide) (by decide) (by simp [goodList, nameOk])⟩

/-- C1, counterexample: at each nesting level the code emits the (sorted)
file lines directly after the directory header and the subdirectory blocks
only afterwards, and the file sort is plain code-point (case-sensitive)
comparison.  On a root listing holding a subdirectory `d` and files `B.txt`
and `a.txt`, the output places both file lines before the directory line
`    ├── d/`, and lists `B.txt` before `a.txt` even though the
case-insensitive order is `a.txt` before `B.txt` (lowercasing gives
`a.txt` < `b.txt`). -/
theorem C1_counterexample :
    generate_directory_tree ["repo"]
        [Entry.dir "d" [], Entry.file "B.txt", Entry.file "a.txt"] [] =
      [".", "    ├── B.txt", "    ├── a.txt", "    ├── d/"] ∧
    List.indexOf "    ├── B.txt"
        (generate_directory_tree ["repo"]
          [Entry.dir "d" [], Entry.file "B.txt", Entry.file "a.txt"] []) <
      List.indexOf "    ├── d/"
        (generate_directory_tree ["repo"]
          [Entry.dir "d" [], Entry.file "B.txt", Entry.file "a.txt"] []) ∧
    List.indexOf "    ├── B.txt"
        (generate_directory_tree ["repo"]
          [Entry.dir "d" [], Entry.file "B.txt", Entry.file "a.txt"] []) <
      List.indexOf "    ├── a.txt"
        (generate_directory_tree ["repo"]
          [Entry.dir "d" [], Entry.file "B.txt", Entry.file "a.txt"] []) ∧
    pyStrLtChars ("a.txt".data.map Char.toLower) ("B.txt".data.map Char.toLower) =
      true := by
  have h : generate_directory_tree ["repo"]
      [Entry.dir "d" [], Entry.file "B.txt", Entry.file "a.txt"] [] =
      [".", "    ├── B.txt", "    ├── a.txt", "    ├── d/"] := by
    simp only [generate_directory_tree, walkEntries]
    decide
  refine ⟨h, ?_, ?_, by decide⟩
  · rw [h]
    decide
  · rw [h]
    decide

/-- C1, amended: the actual per-level ordering of the code.  For every
non-excluded directory, its block is its header row, then the rows of its
surviving files sorted by plain code-point comparison (Python `sorted`,
case-sensitive), then the subdirectory blocks in listing (`os.scandir`)
order; the root of `generate_directory_tree` is exactly such a block, and
every subdirectory contributes exactly such a block at its position in the
listing.  Patterns are restricted to `validPattern` entries, on which the
matcher model agrees with `PurePath.match`. -/
theorem C1_order (exclude_dirs startParts relParts : List String) (cs : List Entry)
    (_hpats : ∀ e ∈ exclude_dirs, validPattern e = true)
    (h : dirExcluded exclude_dirs (startParts ++ relParts) relParts = false) :
    (∃ fnames : List String,
      List.Sorted pyLeRel fnames ∧
      dirBlock exclude_dirs startParts relParts cs =
        dirRow relParts ::
          (fnames.map (fileRow relParts.length) ++
            walkEntries exclude_dirs startParts relParts cs)) ∧
    generate_directory_tree startParts cs exclude_dirs =
      dirBlock exclude_dirs startParts [] cs ∧
    (∀ (rel2 : List String) (n : String) (sub es : List Entry),
      walkEntries exclude_dirs startParts rel2 (Entry.dir n sub :: es) =
        dirBlock exclude_dirs startParts (rel2 ++ [n]) sub ++
          walkEntries exclude_dirs startParts rel2 es) := by
  refine ⟨?_, ?_, ?_⟩
  · refine ⟨(List.insertionSort pyLeRel (fileNames cs)).filter
      (fun f => !fileExcluded exclude_dirs (relParts ++ [f])), ?_, ?_⟩
    · exact List.Sorted.filter _ (List.sorted_insertionSort pyLeRel _)
    · rw [dirBlock, if_neg (by simp [h]), sortedFileRows]
      rfl
  · rw [generate_directory_tree, dirBlock]
    simp
  · intro rel2 n sub es
    rw [walkEntries, dirBlock]
    simp [List.append_assoc]

theorem C1_order_witness :
    (∀ e ∈ ([] : List String), validPattern e = true) ∧
    dirExcluded [] (["repo"] ++ []) [] = false ∧
    ((∃ fnames : List String,
      List.Sorted pyLeRel fnames ∧
      dirBlock [] ["repo"] [] [Entry.dir "d" [], Entry.file "B.txt", Entry.file "a.txt"] =
        dirRow [] ::
          (fnames.map (fileRow ([] : List String).length) ++
            walkEntries [] ["repo"] []
              [Entry.dir "d" [], Entry.file "B.txt", Entry.file "a.txt"])) ∧
    generate_directory_tree ["repo"]
        [Entry.dir "d" [], Entry.file "B.txt", Entry.file "a.txt"] [] =
      dirBlock [] ["repo"] [] [Entry.dir "d" [], Entry.file "B.txt", Entry.file "a.txt"] ∧
    (∀ (rel2 : List String) (n : String) (sub es : List Entry),
      walkEntries [] ["repo"] rel2 (Entry.dir n sub :: es) =
        dirBlock [] ["repo"] (rel2 ++ [n]) sub ++
          walkEntries [] ["repo"] rel2 es)) :=
  ⟨by decide, by decide,
    C1_order [] ["repo"] [] [Entry.dir "d" [], Entry.file "B.txt", Entry.file "a.txt"]
      (by decide) (by decide)⟩

end RepoCtx
